import Mathlib

/-!
Verification development for the AST-to-dependency-tree pipeline of the
AstProbing repository (`src/data/code2ast.py`).

The Python module manipulates `networkx` directed graphs whose nodes carry
the attributes `type`, `is_terminal`, `start`, `end`.  We embed such a graph
as an association list of node ids to attribute records together with a list
of labelled directed edges (insertion order of the lists models networkx's
insertion order, which is the iteration order Python observes).

Library calls are embedded as follows:
* `nx.single_source_shortest_path_length(G, v).keys()` is used by the code
  only as the *set* of nodes reachable from `v`; we compute it with a
  fuel-bounded breadth-first closure (`reachableFrom`).
* `nx.shortest_path(nx.Graph(G), s, t)` is only ever applied to rooted-tree
  graphs, where the undirected shortest path is the unique simple path
  between `s` and `t`; we compute that unique path from the two parent
  chains (`shortest_path` below), which is the contract of the library call
  on this input class.
* Python runtime errors (`IndexError` on `list(G.in_edges(n))[0]`,
  `KeyError`, `ZeroDivisionError`, failed `assert`) are modelled with
  `Option`/`Except` results.
-/

namespace AstProbing

/-- Node attributes of a constituency / dependency graph node
(`type`, `is_terminal`, `start`, `end` in the Python code; `end` is a Lean
keyword so the field is called `endB`). -/
structure NodeAttrs where
  type : String
  is_terminal : Bool
  start : Nat
  endB : Nat
deriving DecidableEq, Repr

/-- A networkx `DiGraph` as used by `code2ast.py`: nodes with attributes and
directed edges with an optional string label (tree edges carry no label,
dependency edges carry `label = 'dependency'`). -/
structure DiGraph where
  nodes : List (Nat × NodeAttrs)
  edges : List (Nat × Nat × Option String)
deriving DecidableEq, Repr

/-- The list of node ids, in insertion order (`list(G.nodes)`). -/
def DiGraph.nodeIds (G : DiGraph) : List Nat := G.nodes.map Prod.fst

/-- Attribute lookup `G.nodes[n]` (first binding wins; ids are unique in all
well-formed graphs). -/
def DiGraph.attr (G : DiGraph) (n : Nat) : Option NodeAttrs :=
  (G.nodes.find? (fun p => p.1 = n)).map Prod.snd

/-- Total variants of the attribute projections (callers only use them on
ids present in the graph; the default is irrelevant there). -/
def DiGraph.attrD (G : DiGraph) (n : Nat) : NodeAttrs :=
  (G.attr n).getD ⟨"", false, 0, 0⟩

def startOf (G : DiGraph) (n : Nat) : Nat := (G.attrD n).start

def typeOf (G : DiGraph) (n : Nat) : String := (G.attrD n).type

/-- `G.nodes[n]['is_terminal']` as a Bool. -/
def isTerminal (G : DiGraph) (n : Nat) : Bool := (G.attrD n).is_terminal

/-- `G.add_node(i, ...)` (networkx appends new nodes in insertion order). -/
def addNode (G : DiGraph) (i : Nat) (a : NodeAttrs) : DiGraph :=
  { G with nodes := G.nodes ++ [(i, a)] }

/-- `G.add_edge(a, b)` / `G.add_edge(a, b, label=l)`. -/
def addEdge (G : DiGraph) (a b : Nat) (l : Option String) : DiGraph :=
  { G with edges := G.edges ++ [(a, b, l)] }

/-- `getId(G)`: `0` on the empty graph, otherwise `max(list(G)) + 1`. -/
def getId (G : DiGraph) : Nat :=
  if G.nodes.length = 0 then 0 else (G.nodeIds.foldl max 0) + 1

/-- Direct successors of `v` (targets of out-edges, insertion order). -/
def succs (G : DiGraph) (v : Nat) : List Nat :=
  (G.edges.filter (fun e => e.1 = v)).map (fun e => e.2.1)

/-- `list(G.in_edges(n))[0][0]`: the source of the first in-edge of `n`,
`none` when `n` has no in-edge (Python raises `IndexError` there). -/
def parentOf (G : DiGraph) (n : Nat) : Option Nat :=
  ((G.edges.filter (fun e => e.2.1 = n)).head?).map Prod.fst

/-- Number of in-edges of `n`. -/
def inDegree (G : DiGraph) (n : Nat) : Nat :=
  (G.edges.filter (fun e => e.2.1 = n)).length

/-- One round of the breadth-first closure: append all yet-unseen successors
of the accumulated set; stop at a fixed point. -/
def reachAux (G : DiGraph) : Nat → List Nat → List Nat
  | 0, acc => acc
  | fuel + 1, acc =>
    let new := ((acc.flatMap (succs G)).filter (fun m => ¬ acc.contains m)).dedup
    if new = [] then acc else reachAux G fuel (acc ++ new)

/-- The set of nodes reachable from `v` by directed edges; embeds
`list(nx.single_source_shortest_path_length(G, v).keys())`, of which the
code only uses the membership set. -/
def reachableFrom (G : DiGraph) (v : Nat) : List Nat :=
  reachAux G G.nodes.length [v]

/-- `getCandidate(G, level, start)` from `code2ast.py`: among the terminals
reachable from `level` whose `start` is strictly smaller than `start`,
return the one with the smallest `start` (Python sorts and takes index 0);
`None` when there is no such terminal. -/
def getCandidate (G : DiGraph) (level : Nat) (start : Nat) : Option Nat :=
  let nodes := reachableFrom G level
  let nodes := nodes.filter (fun n => isTerminal G n)
  let nodes := nodes.filter (fun n => startOf G n < start)
  (nodes.insertionSort (fun a b => startOf G a ≤ startOf G b)).head?

/-- The `while True` loop of `selectHead`, walking up the parent chain.
Fuel bounds the walk; the `none` results model the Python `IndexError`
raised by `list(G.in_edges(father))[0]` when the walk passes the root. -/
def selectHeadAux (G : DiGraph) (s : Nat) : Nat → Nat → Option Nat
  | 0, _ => none
  | fuel + 1, father =>
    match getCandidate G father s with
    | some cand => some cand
    | none =>
      match parentOf G father with
      | some p => selectHeadAux G s fuel p
      | none => none

/-- `selectHead(G, n)`: start at `n`'s parent and walk upward until some
ancestor level yields a candidate head. -/
def selectHead (G : DiGraph) (n : Nat) : Option Nat :=
  match parentOf G n with
  | some father => selectHeadAux G (startOf G n) G.nodes.length father
  | none => none

/-- `getRoot(G)`: the terminal with the smallest `start` (Python sorts the
terminals by `start` and takes index 0; it raises `IndexError` on a graph
without terminals, a case no caller exercises — the total model returns 0
there). -/
def getRoot (G : DiGraph) : Nat :=
  (((G.nodeIds.filter (fun n => isTerminal G n)).insertionSort
      (fun a b => startOf G a ≤ startOf G b)).headD 0)

/-! ## Tree Builder (`getGraphFromTree`, `code2ast`) -/

/-- A parser's native tree node (tree-sitter interface described in spec §6:
`type`, `start_byte`, `end_byte`, ordered `children`). -/
inductive TSNode where
  | mk (type : String) (start_byte : Nat) (end_byte : Nat)
       (children : List TSNode)

def TSNode.type : TSNode → String
  | .mk t _ _ _ => t

def TSNode.start_byte : TSNode → Nat
  | .mk _ s _ _ => s

def TSNode.end_byte : TSNode → Nat
  | .mk _ _ e _ => e

def TSNode.children : TSNode → List TSNode
  | .mk _ _ _ cs => cs

mutual

/-- `getGraphFromTree(node, G, id_father)`: add every child with a fresh id
(`getId`), an edge from its father, and recurse. -/
def getGraphFromTree : TSNode → DiGraph → Nat → DiGraph
  | .mk _ _ _ cs, G, id_father => graphFromChildren cs G id_father

/-- The `for child in node.children` loop of `getGraphFromTree`. -/
def graphFromChildren : List TSNode → DiGraph → Nat → DiGraph
  | [], G, _ => G
  | c :: cs, G, f =>
    let id_child := getId G
    let G1 := addNode G id_child
      ⟨c.type, decide (c.children.length = 0), c.start_byte, c.end_byte⟩
    let G2 := addEdge G1 f id_child none
    let G3 := getGraphFromTree c G2 id_child
    graphFromChildren cs G3 f

end

/-- `code2ast(code, parser, lang)`.  The comment/docstring strippers live in
a module that is not part of the probed sources and the parser is an
injected collaborator (spec §6), so both are parameters here.  The function
body falls through both `if` branches for any other `lang` and Python then
implicitly returns `None`. -/
def code2ast (code : String) (parse : String → TSNode)
    (stripPy stripJs : String → String) (lang : String) :
    Option (DiGraph × String) :=
  if lang = "python" then
    let code := stripPy code
    let tree := parse code
    let G : DiGraph := ⟨[(0, ⟨tree.type, false, tree.start_byte, tree.end_byte⟩)], []⟩
    let G := getGraphFromTree tree G 0
    some (G, code)
  else if lang = "javascript" then
    let code := stripJs code
    let tree := parse code
    let G : DiGraph := ⟨[(0, ⟨tree.type, false, tree.start_byte, tree.end_byte⟩)], []⟩
    let G := getGraphFromTree tree G 0
    some (G, code)
  else
    none

/-! ## Dependency Projector (`enrichAstWithDeps`, `getDependencyTree`) -/

/-- `enrichAstWithDeps(G)`: for every terminal other than the leftmost one,
add the dependency edge `selectHead(G, n) → n` to the same (evolving) graph.
The fold mirrors Python's in-place mutation during iteration; `none` models
the `IndexError` selectHead raises when it finds no head. -/
def enrichAstWithDeps (G : DiGraph) : Option DiGraph :=
  let root := getRoot G
  let ns := G.nodeIds.filter (fun n => n ≠ root && isTerminal G n)
  ns.foldlM (fun G' n =>
    (selectHead G' n).map (fun h => addEdge G' h n (some "dependency"))) G

/-- Truthiness of `G[n1][n2].get("label", 'dependency')`: a missing label
defaults to the non-empty string `'dependency'`; a present label is truthy
iff it is non-empty. -/
def truthyLabel : Option String → Bool
  | none => true
  | some s => s ≠ ""

/-- `getDependencyTree(G)`: the subgraph over terminal nodes, keeping edges
whose label lookup is truthy (which, for a graph produced by the pipeline,
keeps exactly the `'dependency'` edges because tree edges never join two
terminals). -/
def getDependencyTree (G : DiGraph) : DiGraph :=
  ⟨G.nodes.filter (fun p => p.2.is_terminal),
   G.edges.filter (fun e =>
     isTerminal G e.1 && isTerminal G e.2.1 && truthyLabel e.2.2)⟩

/-- `getHeadDepTree(T, n)`: source of the first in-edge of `n` in the
dependency tree.  Python raises `IndexError` when `n` has no in-edge; no
caller reaches that case on pipeline outputs, and the total model returns
`0` (an id that never names a terminal) there. -/
def getHeadDepTree (T : DiGraph) (n : Nat) : Nat :=
  (parentOf T n).getD 0

/-! ## Paths in the constituency tree -/

/-- The chain `n`, parent of `n`, parent of that, ... (fuel-bounded; the
well-formedness predicate below guarantees the chain reaches node `0`,
which has no in-edge, within `|nodes|` steps). -/
def chainAux (G : DiGraph) : Nat → Nat → List Nat
  | 0, n => [n]
  | fuel + 1, n =>
    match parentOf G n with
    | none => [n]
    | some p => n :: chainAux G fuel p

/-- The ancestor chain of `n`, from `n` up to the root. -/
def ancestors (G : DiGraph) (n : Nat) : List Nat :=
  chainAux G G.nodes.length n

/-- Embeds `nx.shortest_path(nx.Graph(G), s, t)` for the rooted-tree graphs
this code applies it to: the unique simple path between `s` and `t`, namely
`s`'s ancestor chain up to the lowest common ancestor followed by the
reverse of `t`'s chain below it.  Returns `[]` when `s` and `t` are not
connected (where networkx raises `NetworkXNoPath`). -/
def shortest_path (G : DiGraph) (s t : Nat) : List Nat :=
  let ca := ancestors G s
  let cb := ancestors G t
  match ca.find? (fun m => cb.contains m) with
  | none => []
  | some w => (ca.takeWhile (fun m => m ≠ w)) ++ [w] ++
      ((cb.takeWhile (fun m => m ≠ w)).reverse)

/-- Python's `path[1:-1]`. -/
def interior (l : List Nat) : List Nat := (l.drop 1).dropLast

/-- `getDepth(G, n, root)`: the length of
`nx.shortest_path(nx.Graph(G), n, root)[1:-1]`. -/
def getDepth (G : DiGraph) (n root : Nat) : Nat :=
  (interior (shortest_path G n root)).length

/-! ## Edge Encoder (`labelDepTree`, `ComplexEdgeLabels`) -/

/-- The `complex_edge` payload.  `special_index` is a Python `int`; the
fallback `len(spine_n) - 1` can in principle be `-1`, so the field is an
`Int`. -/
structure ComplexEdgeLabels where
  non_terminals : List String
  depths : List Nat
  special_index : Int
deriving DecidableEq, Repr

/-- The index-selection loop of `labelDepTree`:
`for j, m in enumerate(spine_n): if m in spine_head: index = spine_head.index(m)`
followed by the `None` fallback `len(spine_n) - 1`. -/
def spineIndex (spine_n spine_head : List Nat) : Int :=
  match spine_n.foldl
      (fun acc m =>
        if spine_head.contains m then some (spine_head.indexOf m) else acc)
      none with
  | some j => (j : Int)
  | none => (spine_n.length : Int) - 1

/-- `labelDepTree(G, T)` computes, for every non-root terminal `n` with
dependency head `h`, the `ComplexEdgeLabels` value the Python code stores
at `T[h][n]['complex_edge']`.  The store is modelled as the list of
assignments in loop order. -/
def labelDepTree (G T : DiGraph) : List ((Nat × Nat) × ComplexEdgeLabels) :=
  let root := getRoot G
  let ns := G.nodeIds.filter (fun n => n ≠ root && isTerminal G n)
  ns.map (fun n =>
    let h := getHeadDepTree T n
    if h = root then
      let inner := interior (shortest_path G h n)
      ((h, n),
        ⟨inner.map (typeOf G), inner.map (fun m => getDepth G m root), 0⟩)
    else
      let h_head := getHeadDepTree T h
      let spine_head := interior (shortest_path G h h_head)
      let spine_n := interior (shortest_path G h n)
      ((h, n),
        ⟨spine_n.map (typeOf G), spine_n.map (fun m => getDepth G m root),
         spineIndex spine_n spine_head⟩))

/-- Edge-label lookup `T[h][n]['complex_edge']` against the assignment
list (a later assignment would overwrite an earlier one, hence the reversed
search; `labelDepTree` in fact assigns each edge at most once). -/
def lookupLabel (labels : List ((Nat × Nat) × ComplexEdgeLabels))
    (h n : Nat) : Option ComplexEdgeLabels :=
  (labels.reverse.find? (fun p => p.1 = (h, n))).map Prod.snd

/-! ## Tree Reconstructor (`from_label_dep_tree_to_ast`) -/

/-- Node attributes in the reconstructed tree.  The Python code gives the
scaffold and grafted nonterminals only `type` and `is_terminal`, while
terminals copy the full four-key dict from the dependency tree;
`get_correspondence` compares whole dicts, so the missing keys matter and
the byte span is an `Option` here. -/
structure AstAttrs where
  type : String
  is_terminal : Bool
  span : Option (Nat × Nat)
deriving DecidableEq, Repr

/-- The undirected `nx.Graph` grown by the reconstruction. -/
structure RGraph where
  nodes : List (Nat × AstAttrs)
  edges : List (Nat × Nat)
deriving DecidableEq, Repr

/-- `getId` on the reconstruction graph (same Python helper, applied to the
undirected graph). -/
def rGetId (R : RGraph) : Nat :=
  if R.nodes.length = 0 then 0 else ((R.nodes.map Prod.fst).foldl max 0) + 1

def rAddNode (R : RGraph) (i : Nat) (a : AstAttrs) : RGraph :=
  { R with nodes := R.nodes ++ [(i, a)] }

def rAddEdge (R : RGraph) (a b : Nat) : RGraph :=
  { R with edges := R.edges ++ [(a, b)] }

/-- The full attribute dict `T.nodes[n]` of a dependency-tree node, in
reconstruction-attribute form. -/
def astAttrsOfDep (T : DiGraph) (n : Nat) : AstAttrs :=
  let a := T.attrD n
  ⟨a.type, a.is_terminal, some (a.start, a.endB)⟩

/-- `get_correspondence(T_ast, T, n)`: the first node of the reconstructed
graph whose attribute dict equals `T.nodes[n]` (`None` when there is none;
Python then returns `None` and the subsequent path query fails). -/
def get_correspondence (T_ast : RGraph) (T : DiGraph) (n : Nat) :
    Option Nat :=
  (T_ast.nodes.find? (fun p => p.2 = astAttrsOfDep T n)).map Prod.fst

/-- Undirected neighbours in the reconstruction graph. -/
def rNeighbors (R : RGraph) (v : Nat) : List Nat :=
  (R.edges.filter (fun e => e.1 = v)).map Prod.snd ++
    (R.edges.filter (fun e => e.2 = v)).map Prod.fst

/-- Fuel-bounded breadth-first search producing a shortest path; embeds
`nx.shortest_path` on the reconstruction graph (always a tree by
construction, so the shortest path is its unique simple path). -/
def rBfsAux (R : RGraph) (t : Nat) :
    Nat → List (List Nat) → List Nat → Option (List Nat)
  | 0, _, _ => none
  | _, [], _ => none
  | fuel + 1, paths, seen =>
    match paths.find? (fun p => p.headD 0 = t) with
    | some p => some p.reverse
    | none =>
      let next := paths.flatMap (fun p =>
        ((rNeighbors R (p.headD 0)).filter (fun m => ¬ seen.contains m)).map
          (fun m => m :: p))
      let newSeen := seen ++ (next.map (fun p => p.headD 0)).dedup
      rBfsAux R t fuel next newSeen

/-- `nx.shortest_path(T_ast, source=s, target=t)` (`none` when unreachable
or when an endpoint is missing, where networkx raises). -/
def rShortestPath (R : RGraph) (s t : Nat) : Option (List Nat) :=
  if (R.nodes.map Prod.fst).contains s ∧ (R.nodes.map Prod.fst).contains t then
    rBfsAux R t (R.nodes.length + 1) [[s]] [s]
  else none

/-- Python indexing `l[i]` with negative indices counting from the end;
`none` models `IndexError`. -/
def pyGet (l : List Nat) (i : Int) : Option Nat :=
  let j : Int := if i < 0 then i + l.length else i
  if h : 0 ≤ j ∧ j < l.length then l.get ⟨j.toNat, by omega⟩ else none

/-- Python slicing `l[i:]` (negative start clamps at the front). -/
def pySliceFrom (l : List String) (i : Int) : List String :=
  if 0 ≤ i then l.drop i.toNat else l.drop (l.length - min l.length (-i).toNat)

/-- `ComplexEdgeLabels.get_node_to_append(path)`: the attachment node
`path[special_index]` and the chain `non_terminals[special_index+1:]` to
graft there. -/
def get_node_to_append (ed : ComplexEdgeLabels) (path : List Nat) :
    Option (Nat × List String) :=
  (pyGet path ed.special_index).map
    (fun node_append => (node_append, pySliceFrom ed.non_terminals (ed.special_index + 1)))

/-- The body of the reconstruction loop for one dependent `n`. -/
def reconStep (T : DiGraph) (labels : List ((Nat × Nat) × ComplexEdgeLabels))
    (root : Nat) (T_ast : RGraph) (n : Nat) : Option RGraph :=
  let h := getHeadDepTree T n
  let path? : Option (List Nat) :=
    if h = root then
      (rShortestPath T_ast 2 0).map interior
    else
      let h_head := getHeadDepTree T h
      match get_correspondence T_ast T h, get_correspondence T_ast T h_head with
      | some hc, some hhc => (rShortestPath T_ast hc hhc).map interior
      | _, _ => none
  match path? with
  | none => none
  | some path =>
    match lookupLabel labels h n with
    | none => none
    | some edge_data =>
      match get_node_to_append edge_data path with
      | none => none
      | some (node_append, to_append) =>
        let step := to_append.foldl
          (fun (st : RGraph × Nat) nt =>
            let m := rGetId st.1
            ((rAddEdge (rAddNode st.1 m ⟨nt, false, none⟩) m st.2), m))
          (T_ast, node_append)
        let m := rGetId step.1
        some (rAddEdge (rAddNode step.1 m (astAttrsOfDep T n)) m step.2)

/-- `from_label_dep_tree_to_ast(T, lang)` over a dependency tree `T` whose
edge labels are the assignment list produced by `labelDepTree`.  For
`lang = 'python'` it grows the `module → function_definition → root`
scaffold and grafts every other terminal in ascending `start` order; for
any other language the Python function returns the bare empty graph.
`none` models the Python runtime errors inside the loop. -/
def from_label_dep_tree_to_ast (T : DiGraph)
    (labels : List ((Nat × Nat) × ComplexEdgeLabels))
    (lang : String) : Option RGraph :=
  let root := getRoot T
  if lang = "python" then
    let T_ast : RGraph :=
      ⟨[(0, ⟨"module", false, none⟩), (1, ⟨"function_definition", false, none⟩),
        (2, astAttrsOfDep T root)], [(0, 1), (1, 2)]⟩
    let ns := ((T.nodeIds.filter (fun n => n ≠ root)).insertionSort
      (fun a b => startOf T a ≤ startOf T b))
    ns.foldlM (reconStep T labels root) T_ast
  else
    some ⟨[], []⟩

/-! ## Tree comparison (`getUAS`) -/

/-- An undirected networkx `Graph` as used by `getUAS` (node attributes are
never read there). -/
structure UGraph where
  nodes : List Nat
  edges : List (Nat × Nat)
deriving DecidableEq, Repr

/-- `T.has_edge(s, t)` on an undirected graph. -/
def UGraph.hasEdge (T : UGraph) (s t : Nat) : Bool :=
  T.edges.contains (s, t) || T.edges.contains (t, s)

/-- `getUAS(T_true, T_pred)`.  The two `assert` statements are modelled as
the spec §7 error `SizeMismatchError`; the final `float(count)/float(i)`
raises `ZeroDivisionError` when the graphs have no edges. -/
def getUAS (T_true T_pred : UGraph) : Except String ℚ :=
  if T_true.nodes.length ≠ T_pred.nodes.length then
    .error "SizeMismatchError"
  else if T_true.edges.length ≠ T_pred.edges.length then
    .error "SizeMismatchError"
  else
    let count := (T_pred.edges.filter (fun e => T_true.hasEdge e.1 e.2)).length
    let i := T_pred.edges.length
    if i = 0 then .error "ZeroDivisionError"
    else .ok ((count : ℚ) / (i : ℚ))

/-! ## Analysis vocabulary: reachability, well-formedness, pipeline -/

/-- One directed edge step (any label). -/
def Step (G : DiGraph) (x y : Nat) : Prop := ∃ l, (x, y, l) ∈ G.edges

/-- Directed reachability (the relation `reachableFrom` computes). -/
def Reach (G : DiGraph) : Nat → Nat → Prop := Relation.ReflTransGen (Step G)

/-- Well-formedness of a constituency graph, following the data-model
invariants of spec §3: unique ids, root `0` with no in-edge and
non-terminal mark, every non-root node with exactly one in-edge and a
parent chain reaching `0`, `is_terminal` marking exactly the childless
nodes, unlabelled edges between existing nodes, and pairwise distinct
`start` offsets among terminals. -/
structure WF (G : DiGraph) : Prop where
  nodup_ids : G.nodeIds.Nodup
  root_mem : 0 ∈ G.nodeIds
  root_nonterminal : isTerminal G 0 = false
  edges_ok : ∀ e ∈ G.edges, e.2.2 = none ∧ e.1 ∈ G.nodeIds ∧ e.2.1 ∈ G.nodeIds
  indeg_one : ∀ n ∈ G.nodeIds, n ≠ 0 → inDegree G n = 1
  indeg_root : inDegree G 0 = 0
  reaches_root : ∀ n ∈ G.nodeIds, 0 ∈ ancestors G n
  terminal_iff : ∀ n ∈ G.nodeIds, isTerminal G n = true ↔ succs G n = []
  starts_nodup : ((G.nodeIds.filter (fun n => isTerminal G n)).map
    (startOf G)).Nodup

/-- The candidate set `getCandidate` selects from: terminals reachable from
`v` whose `start` is below `s`. -/
def IsCandidate (G : DiGraph) (v s m : Nat) : Prop :=
  Reach G v m ∧ isTerminal G m = true ∧ startOf G m < s

/-- The dependency tree of a constituency graph (Projector composed with
the in-place head enrichment). -/
def pipelineDepTree (G : DiGraph) : Option DiGraph :=
  (enrichAstWithDeps G).map getDependencyTree

/-- The whole round trip of claim C1: project, encode, reconstruct. -/
def pipelineRecon (G : DiGraph) : Option RGraph := do
  let T ← pipelineDepTree G
  from_label_dep_tree_to_ast T (labelDepTree G T) "python"

/-- Nonterminal type names of a constituency graph (list form). -/
def ntTypes (G : DiGraph) : List String :=
  (G.nodes.filter (fun p => ¬ p.2.is_terminal)).map (fun p => p.2.type)

/-- Nonterminal type names of a reconstructed tree (list form). -/
def rNtTypes (R : RGraph) : List String :=
  (R.nodes.filter (fun p => ¬ p.2.is_terminal)).map (fun p => p.2.type)

/-- Computable multiset equality of two lists of strings (equal occurrence
counts). -/
def msEq (l1 l2 : List String) : Bool :=
  (l1 ++ l2).all (fun s => l1.count s = l2.count s)

/-- Terminal sequence of a constituency graph ordered by `start`
(type with byte span). -/
def termSeq (G : DiGraph) : List (String × Nat × Nat) :=
  ((G.nodes.filter (fun p => p.2.is_terminal)).map
    (fun p => (p.2.type, p.2.start, p.2.endB))).insertionSort
    (fun a b => a.2.1 ≤ b.2.1)

/-- Terminal sequence of a reconstructed tree ordered by `start`. -/
def rTermSeq (R : RGraph) : List (String × Nat × Nat) :=
  ((R.nodes.filter (fun p => p.2.is_terminal)).map
    (fun p => (p.2.type, (p.2.span.getD (0, 0)).1, (p.2.span.getD (0, 0)).2))).insertionSort
    (fun a b => a.2.1 ≤ b.2.1)

/-! ## Concrete graphs for witnesses and counterexamples

`exampleG` is the graph the Tree Builder produces for
`def f(): pass` — the spec §8 example
(`module → function_definition → {def, identifier, parameters([( , )]), :, block(pass)}`). -/

def exampleG : DiGraph :=
  ⟨[(0, ⟨"module", false, 0, 20⟩),
    (1, ⟨"function_definition", false, 0, 20⟩),
    (2, ⟨"def", true, 0, 3⟩),
    (3, ⟨"identifier", true, 4, 5⟩),
    (4, ⟨"parameters", false, 5, 7⟩),
    (5, ⟨"(", true, 5, 6⟩),
    (6, ⟨")", true, 6, 7⟩),
    (7, ⟨":", true, 7, 8⟩),
    (8, ⟨"block", false, 9, 13⟩),
    (9, ⟨"pass", true, 9, 13⟩)],
   [(0, 1, none), (1, 2, none), (1, 3, none), (1, 4, none), (4, 5, none),
    (4, 6, none), (1, 7, none), (1, 8, none), (8, 9, none)]⟩

/-- The dependency tree of `exampleG` (checked against the pipeline by
`decide` in the theorems below). -/
def exampleT : DiGraph :=
  ⟨[(2, ⟨"def", true, 0, 3⟩),
    (3, ⟨"identifier", true, 4, 5⟩),
    (5, ⟨"(", true, 5, 6⟩),
    (6, ⟨")", true, 6, 7⟩),
    (7, ⟨":", true, 7, 8⟩),
    (9, ⟨"pass", true, 9, 13⟩)],
   [(2, 3, some "dependency"), (2, 5, some "dependency"),
    (5, 6, some "dependency"), (2, 7, some "dependency"),
    (2, 9, some "dependency")]⟩

/-- Counterexample graph for the round-trip claim: the scaffolded tree
`module → function_definition → {nt(tok₁), tok₂, tok₃}`, whose leftmost
terminal sits below an extra nonterminal. -/
def cexG : DiGraph :=
  ⟨[(0, ⟨"module", false, 0, 31⟩),
    (1, ⟨"function_definition", false, 0, 31⟩),
    (2, ⟨"nt", false, 10, 11⟩),
    (3, ⟨"tok", true, 10, 11⟩),
    (4, ⟨"tok", true, 20, 21⟩),
    (5, ⟨"tok", true, 30, 31⟩)],
   [(0, 1, none), (1, 2, none), (2, 3, none), (1, 4, none), (1, 5, none)]⟩

/-- The round-trip property of claim C1 for one constituency graph:
reconstruction succeeds, and preserves the `start`-ordered terminal
sequence and the multiset of nonterminal type names. -/
def RoundTripOK (G : DiGraph) : Prop :=
  ∃ R, pipelineRecon G = some R ∧ rTermSeq R = termSeq G ∧
    (rNtTypes R : Multiset String) = (ntTypes G : Multiset String)

/-! Representative scaffolded trees (3–8 terminals) for the round-trip
property; terminal `start` offsets are `10, 20, …`. -/

def rep3G : DiGraph :=
  ⟨[(0, ⟨"module", false, 0, 99⟩), (1, ⟨"function_definition", false, 0, 99⟩),
    (2, ⟨"tok", true, 10, 11⟩), (3, ⟨"A", false, 0, 0⟩),
    (4, ⟨"tok", true, 20, 21⟩), (5, ⟨"tok", true, 30, 31⟩)],
   [(0, 1, none), (1, 2, none), (1, 3, none), (3, 4, none), (1, 5, none)]⟩

def rep4G : DiGraph :=
  ⟨[(0, ⟨"module", false, 0, 99⟩), (1, ⟨"function_definition", false, 0, 99⟩),
    (2, ⟨"tok", true, 10, 11⟩), (3, ⟨"tok", true, 20, 21⟩),
    (4, ⟨"A", false, 0, 0⟩), (5, ⟨"tok", true, 30, 31⟩),
    (6, ⟨"tok", true, 40, 41⟩)],
   [(0, 1, none), (1, 2, none), (1, 3, none), (1, 4, none), (4, 5, none),
    (4, 6, none)]⟩

def rep5G : DiGraph :=
  ⟨[(0, ⟨"module", false, 0, 99⟩), (1, ⟨"function_definition", false, 0, 99⟩),
    (2, ⟨"tok", true, 10, 11⟩), (3, ⟨"A", false, 0, 0⟩),
    (4, ⟨"tok", true, 20, 21⟩), (5, ⟨"B", false, 0, 0⟩),
    (6, ⟨"tok", true, 30, 31⟩), (7, ⟨"tok", true, 40, 41⟩),
    (8, ⟨"tok", true, 50, 51⟩)],
   [(0, 1, none), (1, 2, none), (1, 3, none), (3, 4, none), (3, 5, none),
    (5, 6, none), (1, 7, none), (1, 8, none)]⟩

def rep7G : DiGraph :=
  ⟨[(0, ⟨"module", false, 0, 99⟩), (1, ⟨"function_definition", false, 0, 99⟩),
    (2, ⟨"tok", true, 10, 11⟩), (3, ⟨"A", false, 0, 0⟩),
    (4, ⟨"B", false, 0, 0⟩), (5, ⟨"tok", true, 20, 21⟩),
    (6, ⟨"tok", true, 30, 31⟩), (7, ⟨"C", false, 0, 0⟩),
    (8, ⟨"tok", true, 40, 41⟩), (9, ⟨"D", false, 0, 0⟩),
    (10, ⟨"tok", true, 50, 51⟩), (11, ⟨"tok", true, 60, 61⟩),
    (12, ⟨"tok", true, 70, 71⟩)],
   [(0, 1, none), (1, 2, none), (1, 3, none), (3, 4, none), (4, 5, none),
    (3, 6, none), (1, 7, none), (7, 8, none), (7, 9, none), (9, 10, none),
    (9, 11, none), (1, 12, none)]⟩

def rep8G : DiGraph :=
  ⟨[(0, ⟨"module", false, 0, 99⟩), (1, ⟨"function_definition", false, 0, 99⟩),
    (2, ⟨"tok", true, 10, 11⟩), (3, ⟨"A", false, 0, 0⟩),
    (4, ⟨"tok", true, 20, 21⟩), (5, ⟨"B", false, 0, 0⟩),
    (6, ⟨"tok", true, 30, 31⟩), (7, ⟨"C", false, 0, 0⟩),
    (8, ⟨"tok", true, 40, 41⟩), (9, ⟨"D", false, 0, 0⟩),
    (10, ⟨"E", false, 0, 0⟩), (11, ⟨"tok", true, 50, 51⟩),
    (12, ⟨"tok", true, 60, 61⟩), (13, ⟨"tok", true, 70, 71⟩),
    (14, ⟨"tok", true, 80, 81⟩)],
   [(0, 1, none), (1, 2, none), (1, 3, none), (3, 4, none), (3, 5, none),
    (5, 6, none), (5, 7, none), (7, 8, none), (1, 9, none), (9, 10, none),
    (10, 11, none), (9, 12, none), (1, 13, none), (1, 14, none)]⟩

/-- The shape of the graph while `enrichAstWithDeps` is mutating it: the
original well-formed constituency graph plus some dependency edges, each
from a terminal to a terminal of strictly larger `start`. -/
def DepExtension (G G' : DiGraph) : Prop :=
  G'.nodes = G.nodes ∧
  ∃ extra, G'.edges = G.edges ++ extra ∧
    ∀ e ∈ extra, isTerminal G e.1 = true ∧ isTerminal G e.2.1 = true ∧
      startOf G e.1 < startOf G e.2.1

/-- The non-root terminals `enrichAstWithDeps` iterates over, in node
insertion order. -/
def depTerminals (G : DiGraph) : List Nat :=
  G.nodeIds.filter (fun n => n ≠ getRoot G && isTerminal G n)

/-- The dependency edges the enrichment inserts (head computed by
`selectHead` on the original graph; the theorems below show the in-place
mutation computes exactly these). -/
def depEdges (G : DiGraph) : List (Nat × Nat × Option String) :=
  (depTerminals G).map
    (fun n => ((selectHead G n).getD 0, n, some "dependency"))

/-- The enriched graph. -/
def enrichedG (G : DiGraph) : DiGraph :=
  { G with edges := G.edges ++ depEdges G }

/-! # Theorems -/

/-! ## Generic helper lemmas -/

/-- `msEq` decides multiset equality of string lists. -/
theorem msEq_iff {l1 l2 : List String} :
    msEq l1 l2 = true ↔ (l1 : Multiset String) = (l2 : Multiset String) := by
  rw [Multiset.coe_eq_coe, List.perm_iff_count]
  unfold msEq
  rw [List.all_eq_true]
  constructor
  · intro h a
    by_cases ha : a ∈ l1 ++ l2
    · have := h a ha
      exact of_decide_eq_true this
    · rw [List.mem_append, not_or] at ha
      rw [List.count_eq_zero_of_not_mem ha.1, List.count_eq_zero_of_not_mem ha.2]
  · intro h a _
    exact decide_eq_true (h a)

/-- `Python \x5b1:-1\x5d` shortens a list by two. -/
theorem interior_length (l : List Nat) : (interior l).length = l.length - 2 := by
  simp [interior]
  omega

/-! ## C10: `code2ast` on an unknown language -/

/-- C10: for every source text, parser and strippers, `code2ast` returns
`None` for any `lang` other than `'python'` and `'javascript'`, rather than
raising or falling back to a default language. -/
theorem code2ast_unknown_lang (code : String) (parse : String → TSNode)
    (sp sj : String → String) (lang : String)
    (hpy : lang ≠ "python") (hjs : lang ≠ "javascript") :
    code2ast code parse sp sj lang = none := by
  unfold code2ast
  rw [if_neg hpy, if_neg hjs]

/-- Witness for `code2ast_unknown_lang` at `lang = "java"`. -/
theorem code2ast_unknown_lang_witness :
    code2ast "def f(): pass" (fun _ => TSNode.mk "module" 0 13 []) id id
      "java" = none :=
  code2ast_unknown_lang _ _ _ _ _ (by decide) (by decide)

/-! ## C7: `getUAS` on size-mismatched trees -/

/-- C7: `getUAS` on two graphs with differing node counts, or equal node
counts but differing edge counts, returns the `SizeMismatchError` failure
and never a score. -/
theorem getUAS_size_mismatch (T1 T2 : UGraph)
    (h : T1.nodes.length ≠ T2.nodes.length ∨
      (T1.nodes.length = T2.nodes.length ∧
        T1.edges.length ≠ T2.edges.length)) :
    getUAS T1 T2 = Except.error "SizeMismatchError" := by
  unfold getUAS
  rcases h with h | ⟨h1, h2⟩
  · rw [if_pos h]
  · rw [if_neg (not_not_intro h1), if_pos h2]

/-- Witness for `getUAS_size_mismatch`: a 1-node tree against a 2-node
tree, and a pair with equal nodes but different edge counts. -/
theorem getUAS_size_mismatch_witness :
    getUAS ⟨[0], []⟩ ⟨[0, 1], []⟩ = Except.error "SizeMismatchError" ∧
    getUAS ⟨[0, 1], []⟩ ⟨[0, 1], [(0, 1)]⟩ =
      Except.error "SizeMismatchError" :=
  ⟨getUAS_size_mismatch _ _ (Or.inl (by decide)),
   getUAS_size_mismatch _ _ (Or.inr ⟨by decide, by decide⟩)⟩

/-! ## C8: `getUAS` self-score and disjoint-score (corrected) -/

/-- C8 counterexample: on the single-node tree (a tree with no edges) the
self-comparison hits `float(0)/float(0)`, a `ZeroDivisionError`, instead of
returning 1.0. -/
theorem getUAS_single_node_cex :
    getUAS ⟨[0], []⟩ ⟨[0], []⟩ = Except.error "ZeroDivisionError" ∧
    getUAS ⟨[0], []⟩ ⟨[0], []⟩ ≠ Except.ok 1 :=
  ⟨rfl, fun h => Except.noConfusion ((rfl :
    getUAS ⟨[0], []⟩ ⟨[0], []⟩ = Except.error "ZeroDivisionError").symm.trans h)⟩

/-- C8 amended: restricted to trees with at least one edge, the
self-comparison scores exactly 1 and a comparison of edge-disjoint
same-sized trees scores exactly 0. -/
theorem getUAS_self_one_disjoint_zero (T T1 T2 : UGraph)
    (hT : T.edges ≠ [])
    (hn : T1.nodes.length = T2.nodes.length)
    (he : T1.edges.length = T2.edges.length)
    (hne : T2.edges ≠ [])
    (hdisj : ∀ e ∈ T2.edges, T1.hasEdge e.1 e.2 = false) :
    getUAS T T = Except.ok 1 ∧ getUAS T1 T2 = Except.ok 0 := by
  constructor
  · unfold getUAS
    rw [if_neg (not_not_intro rfl), if_neg (not_not_intro rfl)]
    have hfilter : T.edges.filter (fun e => T.hasEdge e.1 e.2) = T.edges := by
      apply List.filter_eq_self.mpr
      intro e he
      unfold UGraph.hasEdge
      have he2 : (e.1, e.2) ∈ T.edges := by simpa using he
      simp [he2]
    rw [hfilter]
    have hlen : T.edges.length ≠ 0 := by
      simpa [List.length_eq_zero] using hT
    rw [if_neg hlen]
    congr 1
    rw [div_self]
    exact_mod_cast hlen
  · unfold getUAS
    rw [if_neg (not_not_intro hn), if_neg (not_not_intro he)]
    have hfilter : T2.edges.filter (fun e => T1.hasEdge e.1 e.2) = [] := by
      apply List.filter_eq_nil_iff.mpr
      intro e he
      rw [hdisj e he]
      exact Bool.false_ne_true
    rw [hfilter]
    have hlen : T2.edges.length ≠ 0 := by
      simpa [List.length_eq_zero] using hne
    rw [if_neg hlen]
    norm_num

/-- Witness for `getUAS_self_one_disjoint_zero` on concrete 2- and 3-node
trees. -/
theorem getUAS_self_one_disjoint_zero_witness :
    getUAS ⟨[0, 1], [(0, 1)]⟩ ⟨[0, 1], [(0, 1)]⟩ = Except.ok 1 ∧
    getUAS ⟨[0, 1, 2], [(0, 1)]⟩ ⟨[0, 1, 2], [(1, 2)]⟩ = Except.ok 0 :=
  ⟨(getUAS_self_one_disjoint_zero ⟨[0, 1], [(0, 1)]⟩ ⟨[0, 1, 2], [(0, 1)]⟩
      ⟨[0, 1, 2], [(1, 2)]⟩ (by decide) (by decide) (by decide) (by decide)
      (by decide)).1,
   (getUAS_self_one_disjoint_zero ⟨[0, 1], [(0, 1)]⟩ ⟨[0, 1, 2], [(0, 1)]⟩
      ⟨[0, 1, 2], [(1, 2)]⟩ (by decide) (by decide) (by decide) (by decide)
      (by decide)).2⟩

/-! ## C6: the `depths` entries (corrected) -/

/-- C6 counterexample: in the spec §8 example, the label of the dependency
edge `def → pass` records depths `[0, 1]` for the spine
`[function_definition, block]`, while the numbers of edges on the shortest
paths from those nodes to node `0` are `1` and `2`. -/
theorem labelDepTree_depth_cex :
    pipelineDepTree exampleG = some exampleT ∧
    lookupLabel (labelDepTree exampleG exampleT) 2 9 =
      some ⟨["function_definition", "block"], [0, 1], 0⟩ ∧
    interior (shortest_path exampleG 2 9) = [1, 8] ∧
    (shortest_path exampleG 1 0).length - 1 = 1 ∧
    (shortest_path exampleG 8 0).length - 1 = 2 :=
  ⟨by decide, by decide, by decide, by decide, by decide⟩

/-- C6 amended: each `depths` entry is the length of the shortest path
from the spine nonterminal to the dependency-tree *root terminal*
(`getRoot`, not node 0) minus two — that is, the number of edges on that
path minus one. -/
theorem labelDepTree_depths_pathlen (G T : DiGraph)
    (p : (Nat × Nat) × ComplexEdgeLabels) (hp : p ∈ labelDepTree G T) :
    p.2.depths = (interior (shortest_path G p.1.1 p.1.2)).map
      (fun m => (shortest_path G m (getRoot G)).length - 2) := by
  simp only [labelDepTree, List.mem_map] at hp
  obtain ⟨n, hn, rfl⟩ := hp
  have hfun : (fun m => getDepth G m (getRoot G)) =
      fun m => (shortest_path G m (getRoot G)).length - 2 :=
    funext fun m => by rw [getDepth, interior_length]
  by_cases hr : getHeadDepTree T n = getRoot G
  · simp only [if_pos hr, hfun]
  · simp only [if_neg hr, hfun]

/-- Witness for `labelDepTree_depths_pathlen` at the `def → pass` edge of
the example graph. -/
theorem labelDepTree_depths_pathlen_witness :
    ((((2 : Nat), (9 : Nat)),
        (⟨["function_definition", "block"], [0, 1], 0⟩ : ComplexEdgeLabels)) ∈
      labelDepTree exampleG exampleT) ∧
    ([0, 1] : List Nat) = (interior (shortest_path exampleG 2 9)).map
      (fun m => (shortest_path exampleG m (getRoot exampleG)).length - 2) :=
  ⟨by decide, labelDepTree_depths_pathlen exampleG exampleT
    (((2 : Nat), (9 : Nat)),
      (⟨["function_definition", "block"], [0, 1], 0⟩ : ComplexEdgeLabels))
    (by decide)⟩

/-! ## C4: the `special_index` selection rule -/

/-- The index-updating loop computes the `spine_head`-index of the *last*
element of the traversed list that occurs in `spine_head`. -/
theorem foldl_spineIndex (sh : List Nat) (l : List Nat) (init : Option Nat) :
    l.foldl (fun acc m => if sh.contains m then some (sh.indexOf m) else acc)
        init =
      match (l.filter (fun m => sh.contains m)).getLast? with
      | some m => some (sh.indexOf m)
      | none => init := by
  induction l generalizing init with
  | nil => rfl
  | cons m rest ih =>
    rw [List.foldl_cons, ih]
    by_cases hc : sh.contains m
    · rw [if_pos hc, List.filter_cons_of_pos (by simpa using hc),
        List.getLast?_cons]
      cases hl : (rest.filter (fun m => sh.contains m)).getLast? <;> rfl
    · rw [if_neg hc, List.filter_cons_of_neg (by simpa using hc)]

/-- C4: every label produced by `labelDepTree` satisfies the selection
rule: the stored head is the dependency head of the dependent; for a
root-headed edge the label holds the types of the interior constituency
path with `special_index = 0`; otherwise `special_index` is the position in
`spine_head` of the last node of `spine_n` shared with `spine_head`,
falling back to `len(spine_n) - 1` when nothing is shared. -/
theorem labelDepTree_special_index_spec (G T : DiGraph)
    (p : (Nat × Nat) × ComplexEdgeLabels) (hp : p ∈ labelDepTree G T) :
    p.1.1 = getHeadDepTree T p.1.2 ∧
    (p.1.1 = getRoot G →
      p.2.special_index = 0 ∧
      p.2.non_terminals =
        (interior (shortest_path G p.1.1 p.1.2)).map (typeOf G)) ∧
    (p.1.1 ≠ getRoot G →
      p.2.non_terminals =
        (interior (shortest_path G p.1.1 p.1.2)).map (typeOf G) ∧
      p.2.special_index =
        match ((interior (shortest_path G p.1.1 p.1.2)).filter
            (fun m => (interior (shortest_path G p.1.1
              (getHeadDepTree T p.1.1))).contains m)).getLast? with
        | some m =>
          ((interior (shortest_path G p.1.1
            (getHeadDepTree T p.1.1))).indexOf m : Int)
        | none =>
          ((interior (shortest_path G p.1.1 p.1.2)).length : Int) - 1) := by
  simp only [labelDepTree, List.mem_map] at hp
  obtain ⟨n, hn, rfl⟩ := hp
  by_cases hr : getHeadDepTree T n = getRoot G
  · rw [if_pos hr]
    exact ⟨rfl, fun _ => ⟨rfl, rfl⟩, fun hne => absurd hr hne⟩
  · rw [if_neg hr]
    refine ⟨rfl, fun heq => absurd heq hr, fun _ => ⟨rfl, ?_⟩⟩
    show spineIndex _ _ = _
    unfold spineIndex
    rw [foldl_spineIndex]
    cases (List.filter _ (interior (shortest_path G (getHeadDepTree T n) n))).getLast? <;> rfl

/-- Witness for `labelDepTree_special_index_spec` at the `( → )` edge of
the example graph (a non-root head). -/
theorem labelDepTree_special_index_spec_witness :
    ((((5 : Nat), (6 : Nat)),
        (⟨["parameters"], [1], 0⟩ : ComplexEdgeLabels)) ∈
      labelDepTree exampleG exampleT) ∧
    ((5 : Nat) ≠ getRoot exampleG) ∧
    ((0 : Int) =
      match ((interior (shortest_path exampleG 5 6)).filter
          (fun m => (interior (shortest_path exampleG 5
            (getHeadDepTree exampleT 5))).contains m)).getLast? with
      | some m =>
        ((interior (shortest_path exampleG 5
          (getHeadDepTree exampleT 5))).indexOf m : Int)
      | none => ((interior (shortest_path exampleG 5 6)).length : Int) - 1) :=
  ⟨by decide, by decide,
    ((labelDepTree_special_index_spec exampleG exampleT
        (((5 : Nat), (6 : Nat)),
          (⟨["parameters"], [1], 0⟩ : ComplexEdgeLabels)) (by decide)).2.2
      (by decide)).2⟩

/-! ## C1: the round trip (corrected) -/

/-- Establish `RoundTripOK` from two computable checks. -/
theorem roundTripOK_of_checks (G : DiGraph)
    (h1 : (pipelineRecon G).map rTermSeq = some (termSeq G))
    (h2 : (pipelineRecon G).map (fun R => msEq (ntTypes G) (rNtTypes R)) =
      some true) :
    RoundTripOK G := by
  cases hR : pipelineRecon G with
  | none => rw [hR] at h1; exact absurd h1 (by simp)
  | some R =>
    rw [hR] at h1 h2
    simp only [Option.map_some', Option.some.injEq] at h1 h2
    exact ⟨R, hR, h1, (msEq_iff.mp h2).symm⟩

/-- C1 counterexample: the well-formed scaffolded tree
`module → function_definition → \x7bnt(tok), tok, tok\x7d` (3 terminals)
fails the round trip: its leftmost terminal sits below an extra
nonterminal, and the reconstruction grafts spurious `function_definition`
nodes instead of `nt`, so the nonterminal type multisets differ. -/
theorem round_trip_cex :
    WF cexG ∧ typeOf cexG 0 = "module" ∧
    typeOf cexG 1 = "function_definition" ∧ succs cexG 0 = [1] ∧
    (termSeq cexG).length = 3 ∧ ¬ RoundTripOK cexG := by
  refine ⟨⟨by decide, by decide, by decide, by decide, by decide, by decide,
    by decide, by decide, by decide⟩, by decide, by decide, by decide,
    by decide, ?_⟩
  rintro ⟨R, hR, -, hms⟩
  have h2 : (pipelineRecon cexG).map
      (fun R => msEq (ntTypes cexG) (rNtTypes R)) = some false := by decide
  rw [hR] at h2
  simp only [Option.map_some', Option.some.injEq] at h2
  have htrue : msEq (ntTypes cexG) (rNtTypes R) = true := msEq_iff.mpr hms.symm
  rw [h2] at htrue
  exact Bool.false_ne_true htrue

/-- C1 amended (the spec's own representative-set reading): for a
representative set of small scaffolded trees with 3 to 8 terminals — all
with the leftmost terminal directly below `function_definition` — the
round trip preserves the `start`-ordered terminal sequence and the
multiset of nonterminal type names. -/
theorem round_trip_representative :
    RoundTripOK rep3G ∧ RoundTripOK rep4G ∧ RoundTripOK rep5G ∧
    RoundTripOK exampleG ∧ RoundTripOK rep7G ∧ RoundTripOK rep8G :=
  ⟨roundTripOK_of_checks _ (by decide) (by decide),
   roundTripOK_of_checks _ (by decide) (by decide),
   roundTripOK_of_checks _ (by decide) (by decide),
   roundTripOK_of_checks _ (by decide) (by decide),
   roundTripOK_of_checks _ (by decide) (by decide),
   roundTripOK_of_checks _ (by decide) (by decide)⟩

/-! ## Ancestor-chain lemmas (used by C2, C3, C5, C9) -/

theorem chainAux_ne_nil (G : DiGraph) (fuel n : Nat) :
    chainAux G fuel n ≠ [] := by
  cases fuel with
  | zero => simp [chainAux]
  | succ f =>
    unfold chainAux
    cases parentOf G n <;> simp

theorem chainAux_head (G : DiGraph) (fuel n : Nat) :
    (chainAux G fuel n).head? = some n := by
  cases fuel with
  | zero => rfl
  | succ f =>
    unfold chainAux
    cases parentOf G n <;> rfl

theorem mem_chainAux_self (G : DiGraph) (fuel n : Nat) :
    n ∈ chainAux G fuel n := by
  have h := chainAux_head G fuel n
  cases hc : chainAux G fuel n with
  | nil => exact absurd hc (chainAux_ne_nil G fuel n)
  | cons a t =>
    rw [hc] at h
    simp only [List.head?_cons, Option.some.injEq] at h
    rw [h]
    exact List.mem_cons_self n t

/-- Fuel stability: once the chain has reached `0` (which has no parent),
more fuel does not change it. -/
theorem chainAux_stable (G : DiGraph) (h0 : parentOf G 0 = none) :
    ∀ (f n : Nat), 0 ∈ chainAux G f n →
      chainAux G (f + 1) n = chainAux G f n := by
  intro f
  induction f with
  | zero =>
    intro n hn
    simp only [chainAux] at hn
    rw [List.mem_singleton] at hn
    subst hn
    simp [chainAux, h0]
  | succ f ih =>
    intro n hn
    unfold chainAux at hn ⊢
    cases hp : parentOf G n with
    | none => simp [hp]
    | some p =>
      simp only [hp] at hn ⊢
      have hn0 : n ≠ 0 := by
        rintro rfl
        rw [h0] at hp
        exact Option.noConfusion hp
      have h0p : 0 ∈ chainAux G f p := by
        rcases List.mem_cons.mp hn with h | h
        · exact absurd h.symm hn0
        · exact h
      rw [ih p h0p]

theorem chainAux_stable_ge (G : DiGraph) (h0 : parentOf G 0 = none)
    {f f' : Nat} (hff : f ≤ f') (n : Nat) (hn : 0 ∈ chainAux G f n) :
    chainAux G f' n = chainAux G f n := by
  induction hff with
  | refl => rfl
  | @step m h ih =>
    have h0m : 0 ∈ chainAux G m n := by rw [ih]; exact hn
    rw [chainAux_stable G h0 m n h0m, ih]

theorem parentOf_mem_ids (G : DiGraph) (hwf : WF G) {x m : Nat}
    (h : parentOf G x = some m) : m ∈ G.nodeIds := by
  unfold parentOf at h
  cases he : (G.edges.filter (fun e => e.2.1 = x)).head? with
  | none => rw [he] at h; exact Option.noConfusion h
  | some e =>
    rw [he] at h
    simp only [Option.map_some', Option.some.injEq] at h
    have he2 : e ∈ G.edges.filter (fun e => e.2.1 = x) :=
      List.mem_of_mem_head? he
    have hmem : e ∈ G.edges := List.mem_of_mem_filter he2
    rw [← h]
    exact (hwf.edges_ok e hmem).2.1

/-- `parentOf` at a non-root node of a well-formed graph. -/
theorem parentOf_some (G : DiGraph) (hwf : WF G) {n : Nat}
    (hn : n ∈ G.nodeIds) (hne : n ≠ 0) : ∃ p, parentOf G n = some p := by
  have h1 := hwf.indeg_one n hn hne
  unfold inDegree at h1
  unfold parentOf
  cases he : (G.edges.filter (fun e => e.2.1 = n)) with
  | nil => rw [he] at h1; exact absurd h1 (by simp)
  | cons e rest => exact ⟨e.1, rfl⟩

theorem parentOf_zero (G : DiGraph) (hwf : WF G) : parentOf G 0 = none := by
  have h := hwf.indeg_root
  unfold inDegree at h
  unfold parentOf
  rw [List.length_eq_zero.mp h]
  rfl

theorem nodes_length_pos (G : DiGraph) (hwf : WF G) : 0 < G.nodes.length := by
  have := hwf.root_mem
  unfold DiGraph.nodeIds at this
  rcases List.mem_map.mp this with ⟨p, hp, -⟩
  exact List.length_pos.mpr (List.ne_nil_of_mem hp)

/-- Unfolding of the ancestor chain at a non-root node of a well-formed
graph. -/
theorem ancestors_cons (G : DiGraph) (hwf : WF G) {n : Nat}
    (hn : n ∈ G.nodeIds) (hne : n ≠ 0) :
    ∃ p, parentOf G n = some p ∧ p ∈ G.nodeIds ∧
      ancestors G n = n :: ancestors G p := by
  obtain ⟨p, hp⟩ := parentOf_some G hwf hn hne
  refine ⟨p, hp, parentOf_mem_ids G hwf hp, ?_⟩
  have hN := nodes_length_pos G hwf
  obtain ⟨M, hM⟩ : ∃ M, G.nodes.length = M + 1 :=
    ⟨G.nodes.length - 1, by omega⟩
  have h0 : 0 ∈ chainAux G M p := by
    have hroot := hwf.reaches_root n hn
    unfold ancestors at hroot
    rw [hM] at hroot
    unfold chainAux at hroot
    rw [hp] at hroot
    rcases List.mem_cons.mp hroot with h | h
    · exact absurd h.symm hne
    · exact h
  have hstab : ancestors G p = chainAux G M p := by
    unfold ancestors
    rw [hM]
    exact chainAux_stable_ge G (parentOf_zero G hwf) (Nat.le_succ M) p h0
  rw [hstab]
  unfold ancestors
  rw [hM]
  show (match parentOf G n with
    | none => [n]
    | some p => n :: chainAux G M p) = n :: chainAux G M p
  rw [hp]

theorem ancestors_zero (G : DiGraph) (hwf : WF G) : ancestors G 0 = [0] := by
  have hN := nodes_length_pos G hwf
  obtain ⟨M, hM⟩ : ∃ M, G.nodes.length = M + 1 :=
    ⟨G.nodes.length - 1, by omega⟩
  unfold ancestors
  rw [hM]
  unfold chainAux
  rw [parentOf_zero G hwf]

theorem ancestors_head (G : DiGraph) (n : Nat) :
    (ancestors G n).head? = some n := chainAux_head G _ n

theorem mem_ancestors_self (G : DiGraph) (n : Nat) :
    n ∈ ancestors G n := mem_chainAux_self G _ n

theorem mem_ancestors_ids (G : DiGraph) (hwf : WF G) {n : Nat}
    (hn : n ∈ G.nodeIds) : ∀ m ∈ ancestors G n, m ∈ G.nodeIds := by
  have : ∀ (f : Nat) (n : Nat), n ∈ G.nodeIds →
      ∀ m ∈ chainAux G f n, m ∈ G.nodeIds := by
    intro f
    induction f with
    | zero =>
      intro n hn m hm
      simp only [chainAux] at hm
      rw [List.mem_singleton] at hm
      exact hm ▸ hn
    | succ f ih =>
      intro n hn m hm
      unfold chainAux at hm
      cases hp : parentOf G n with
      | none =>
        rw [hp] at hm
        rw [List.mem_singleton] at hm
        exact hm ▸ hn
      | some p =>
        rw [hp] at hm
        rcases List.mem_cons.mp hm with h | h
        · exact h ▸ hn
        · exact ih p (parentOf_mem_ids G hwf hp) m h
  exact this _ n hn

/-- The chain of an ancestor is a suffix of the chain. -/
theorem ancestors_suffix_of_mem (G : DiGraph) (hwf : WF G) :
    ∀ (L : Nat) (n : Nat), (ancestors G n).length = L → n ∈ G.nodeIds →
      ∀ m ∈ ancestors G n, ancestors G m <:+ ancestors G n := by
  intro L
  induction L using Nat.strong_induction_on with
  | _ L ih =>
    intro n hL hn m hm
    by_cases hne : n = 0
    · subst hne
      rw [ancestors_zero G hwf] at hm ⊢
      rw [List.mem_singleton] at hm
      subst hm
      rw [ancestors_zero G hwf]
    · obtain ⟨p, hp, hpids, hcons⟩ := ancestors_cons G hwf hn hne
      rcases List.mem_cons.mp (hcons ▸ hm) with h | h
      · subst h
        exact List.suffix_refl _
      · have hlen : (ancestors G p).length < L := by
          rw [← hL, hcons]
          simp
        have := ih _ hlen p rfl hpids m h
        exact this.trans (hcons ▸ (List.suffix_cons n (ancestors G p)))

theorem ancestors_getLast_zero (G : DiGraph) (hwf : WF G) {n : Nat}
    (hn : n ∈ G.nodeIds) : (ancestors G n).getLast? = some 0 := by
  have key : ∀ (f : Nat) (n : Nat), 0 ∈ chainAux G f n →
      (chainAux G f n).getLast? = some 0 := by
    intro f
    induction f with
    | zero =>
      intro n h
      simp only [chainAux] at h ⊢
      rw [List.mem_singleton] at h
      rw [← h]
      rfl
    | succ f ih =>
      intro n h
      unfold chainAux at h ⊢
      cases hp : parentOf G n with
      | none =>
        simp only [hp] at h ⊢
        rw [List.mem_singleton] at h
        rw [← h]
        rfl
      | some p =>
        simp only [hp] at h ⊢
        have hn0 : n ≠ 0 := by
          rintro rfl
          rw [parentOf_zero G hwf] at hp
          exact Option.noConfusion hp
        have h0p : 0 ∈ chainAux G f p := by
          rcases List.mem_cons.mp h with h | h
          · exact absurd h.symm hn0
          · exact h
        rw [List.getLast?_cons, ih p h0p]
        rfl
  exact key _ n (hwf.reaches_root n hn)

theorem ancestors_nodup (G : DiGraph) (hwf : WF G) :
    ∀ (L : Nat) (n : Nat), (ancestors G n).length = L → n ∈ G.nodeIds →
      (ancestors G n).Nodup := by
  intro L
  induction L using Nat.strong_induction_on with
  | _ L ih =>
    intro n hL hn
    by_cases hne : n = 0
    · subst hne
      rw [ancestors_zero G hwf]
      exact List.nodup_singleton 0
    · obtain ⟨p, hp, hpids, hcons⟩ := ancestors_cons G hwf hn hne
      rw [hcons]
      have hlen : (ancestors G p).length < L := by
        rw [← hL, hcons]; simp
      refine List.Nodup.cons ?_ (ih _ hlen p rfl hpids)
      intro hmem
      have hsuf := ancestors_suffix_of_mem G hwf _ p rfl hpids n hmem
      have h1 : (ancestors G n).length ≤ (ancestors G p).length :=
        hsuf.length_le
      rw [hcons] at h1
      simp at h1

theorem nodeIds_length (G : DiGraph) :
    G.nodeIds.length = G.nodes.length := by
  unfold DiGraph.nodeIds
  exact List.length_map _ _

theorem ancestors_length_le (G : DiGraph) (hwf : WF G) {n : Nat}
    (hn : n ∈ G.nodeIds) : (ancestors G n).length ≤ G.nodes.length := by
  have hsub : ancestors G n ⊆ G.nodeIds := fun m hm =>
    mem_ancestors_ids G hwf hn m hm
  have := (List.subperm_of_subset (ancestors_nodup G hwf _ n rfl hn)
    hsub).length_le
  rwa [nodeIds_length] at this

/-! ## Lowest-common-ancestor structure of `shortest_path` -/

theorem mem_of_getLast?_eq {l : List Nat} {a : Nat}
    (h : l.getLast? = some a) : a ∈ l := by
  obtain ⟨hne, heq⟩ := List.mem_getLast?_eq_getLast
    (show a ∈ l.getLast? by rw [h]; rfl)
  rw [heq]
  exact List.getLast_mem hne

theorem zero_mem_ancestors (G : DiGraph) (hwf : WF G) {n : Nat}
    (hn : n ∈ G.nodeIds) : 0 ∈ ancestors G n :=
  mem_of_getLast?_eq (ancestors_getLast_zero G hwf hn)

/-- `takeWhile (· ≠ w)` of a list split at a `w` whose left part avoids
`w`. -/
theorem takeWhile_ne_of_split {w : Nat} (as bs : List Nat)
    (h : ∀ a ∈ as, a ≠ w) :
    (as ++ w :: bs).takeWhile (fun m => m ≠ w) = as := by
  induction as with
  | nil => simp [List.takeWhile_cons]
  | cons a as ih =>
    have ha : a ≠ w := h a (List.mem_cons_self a as)
    rw [List.cons_append, List.takeWhile_cons, if_pos (by simpa using ha),
      ih (fun x hx => h x (List.mem_cons_of_mem a hx))]

/-- Two suffixes of a duplicate-free list with the same head coincide. -/
theorem suffix_eq_of_head_nodup {l s1 s2 : List Nat} (hnd : l.Nodup)
    (h1 : s1 <:+ l) (h2 : s2 <:+ l) {a : Nat}
    (ha1 : s1.head? = some a) (ha2 : s2.head? = some a) : s1 = s2 := by
  have key : ∀ {u v : List Nat}, u <:+ v → v <:+ l →
      u.head? = some a → v.head? = some a → u = v := by
    intro u v huv hvl hu hv
    obtain ⟨c, hc⟩ := huv
    cases c with
    | nil => simpa using hc
    | cons b c' =>
      exfalso
      have hvnd : v.Nodup := hvl.sublist.nodup hnd
      rw [← hc] at hvnd
      rw [← hc, List.cons_append, List.head?_cons] at hv
      have hb : b = a := by
        simpa using hv
      have hau : a ∈ u := by
        cases u with
        | nil => exact absurd hu (by simp)
        | cons x xs =>
          simp only [List.head?_cons, Option.some.injEq] at hu
          rw [hu]
          exact List.mem_cons_self a xs
      rw [List.cons_append] at hvnd
      have := (List.nodup_cons.mp hvnd).1
      exact this (by rw [hb]; exact List.mem_append_right c' hau)
  rcases List.suffix_or_suffix_of_suffix h1 h2 with h | h
  · exact key h h2 ha1 ha2
  · exact (key h h1 ha2 ha1).symm

/-- The canonical decomposition of `shortest_path` on a well-formed graph:
the two ancestor chains share the suffix below the lowest common ancestor
`w`, the parts above `w` are disjoint from the other chain, and the path is
`s`'s part, then `w`, then the reverse of `t`'s part. -/
theorem lca_spec (G : DiGraph) (hwf : WF G) {s t : Nat}
    (hs : s ∈ G.nodeIds) (ht : t ∈ G.nodeIds) :
    ∃ w as bs as2,
      (ancestors G s).find? (fun m => (ancestors G t).contains m) = some w ∧
      ancestors G s = as ++ w :: bs ∧
      ancestors G t = as2 ++ w :: bs ∧
      ancestors G w = w :: bs ∧
      (∀ a ∈ as, a ∉ ancestors G t) ∧
      (∀ a ∈ as2, a ∉ ancestors G s) ∧
      shortest_path G s t = as ++ [w] ++ as2.reverse := by
  have hfind : ((ancestors G s).find?
      (fun m => (ancestors G t).contains m)).isSome := by
    rw [List.find?_isSome]
    exact ⟨0, zero_mem_ancestors G hwf hs,
      by simpa using zero_mem_ancestors G hwf ht⟩
  obtain ⟨w, hw⟩ := Option.isSome_iff_exists.mp hfind
  obtain ⟨hpw, as, bs, hsplit, hbefore⟩ := List.find?_eq_some.mp hw
  have hwt : w ∈ ancestors G t := by simpa using hpw
  have hbefore2 : ∀ a ∈ as, a ∉ ancestors G t := by
    intro a ha
    have := hbefore a ha
    simpa using this
  have hnds : (ancestors G s).Nodup := ancestors_nodup G hwf _ s rfl hs
  have hndt : (ancestors G t).Nodup := ancestors_nodup G hwf _ t rfl ht
  have hws : w ∈ ancestors G s := by
    rw [hsplit]
    exact List.mem_append_right as (List.mem_cons_self w bs)
  -- the chain of `w` is the common suffix
  have hancw_s : ancestors G w = w :: bs := by
    refine suffix_eq_of_head_nodup hnds
      (ancestors_suffix_of_mem G hwf _ s rfl hs w hws)
      (hsplit ▸ List.suffix_append as (w :: bs)) (ancestors_head G w) rfl
  obtain ⟨as2, bs2, hsplit2⟩ := List.append_of_mem hwt
  have hancw_t : ancestors G w = w :: bs2 := by
    refine suffix_eq_of_head_nodup hndt
      (ancestors_suffix_of_mem G hwf _ t rfl ht w hwt)
      (hsplit2 ▸ List.suffix_append as2 (w :: bs2)) (ancestors_head G w) rfl
  have hbs : bs2 = bs := by
    have := hancw_s.symm.trans hancw_t
    exact (List.cons.injEq _ _ _ _ ▸ this).2.symm
  rw [hbs] at hsplit2
  have hndt2 := hsplit2 ▸ hndt
  have hw_not_as2 : w ∉ as2 := by
    intro hmem
    have := List.disjoint_of_nodup_append hndt2 hmem
    exact this (List.mem_cons_self w bs)
  have has2 : ∀ a ∈ as2, a ∉ ancestors G s := by
    intro a ha hcontra
    rw [hsplit] at hcontra
    rcases List.mem_append.mp hcontra with h | h
    · exact hbefore2 a h (by rw [hsplit2]; exact List.mem_append_left _ ha)
    · rcases List.mem_cons.mp h with h | h
      · exact hw_not_as2 (h ▸ ha)
      · exact (List.disjoint_of_nodup_append hndt2) ha
          (List.mem_cons_of_mem w h)
  refine ⟨w, as, bs, as2, hw, hsplit, hsplit2, hancw_s, hbefore2, has2, ?_⟩
  simp only [shortest_path]
  have h1 : (ancestors G s).takeWhile (fun m => m ≠ w) = as := by
    rw [hsplit]
    exact takeWhile_ne_of_split as bs (fun a ha => by
      intro heq
      exact hbefore2 a ha (heq ▸ hwt))
  have h2 : (ancestors G t).takeWhile (fun m => m ≠ w) = as2 := by
    rw [hsplit2]
    exact takeWhile_ne_of_split as2 bs (fun a ha => by
      intro heq
      exact hw_not_as2 (heq ▸ ha))
  rw [hw]
  show (List.takeWhile (fun m => decide (m ≠ w)) (ancestors G s)) ++ [w] ++
      ((List.takeWhile (fun m => decide (m ≠ w)) (ancestors G t)).reverse) =
    as ++ [w] ++ as2.reverse
  rw [h1, h2]

theorem indexOf_head_zero {l : List Nat} {a : Nat}
    (h : l.head? = some a) : l.indexOf a = 0 := by
  cases l with
  | nil => exact absurd h (by simp)
  | cons x xs =>
    simp only [List.head?_cons, Option.some.injEq] at h
    rw [h, List.indexOf_cons_self]

theorem indexOf_reverse_sum {l : List Nat} {m : Nat} (hnd : l.Nodup)
    (hm : m ∈ l) : l.reverse.indexOf m + l.indexOf m + 1 = l.length := by
  induction l with
  | nil => cases hm
  | cons a rest ih =>
    rw [List.reverse_cons]
    rcases List.mem_cons.mp hm with h | h
    · subst h
      have hnot : m ∉ rest := (List.nodup_cons.mp hnd).1
      rw [List.indexOf_cons_self,
        List.indexOf_append_of_not_mem (by simpa using hnot)]
      simp
    · have hne : (a : Nat) ≠ m := fun he => (List.nodup_cons.mp hnd).1 (he ▸ h)
      rw [List.indexOf_cons_ne rest hne,
        List.indexOf_append_of_mem (by simpa using h)]
      have := ih (List.nodup_cons.mp hnd).2 h
      simp only [List.length_cons]
      omega

/-- Where a node sits on `shortest_path G s t`: nodes on the way up sit at
their position in `s`'s ancestor chain; nodes on the way down sit at a
position determined by `s` and the node alone (through their lowest common
ancestor).  In both cases the position does not depend on `t`. -/
theorem path_indexOf (G : DiGraph) (hwf : WF G) {s t m : Nat}
    (hs : s ∈ G.nodeIds) (ht : t ∈ G.nodeIds)
    (hm : m ∈ shortest_path G s t) :
    (m ∈ ancestors G s ∧
      (shortest_path G s t).indexOf m = (ancestors G s).indexOf m) ∨
    (m ∉ ancestors G s ∧
      ∃ w, (ancestors G s).find?
          (fun z => (ancestors G m).contains z) = some w ∧
        (shortest_path G s t).indexOf m =
          (ancestors G s).indexOf w + (ancestors G m).indexOf w) := by
  obtain ⟨w, as, bs, as2, hw, hsplit, hsplit2, hancw, hbef, hbef2, hpath⟩ :=
    lca_spec G hwf hs ht
  have hwt : w ∈ ancestors G t := by
    rw [hsplit2]
    exact List.mem_append_right as2 (List.mem_cons_self w bs)
  have hndt : (ancestors G t).Nodup := ancestors_nodup G hwf _ t rfl ht
  have hndt2 : (as2 ++ w :: bs).Nodup := hsplit2 ▸ hndt
  have hw_not_as2 : w ∉ as2 := fun hmem =>
    (List.disjoint_of_nodup_append hndt2 hmem) (List.mem_cons_self w bs)
  have hw_not_as : w ∉ as := fun hmem => hbef w hmem hwt
  rw [hpath] at hm ⊢
  by_cases hmem : m ∈ ancestors G s
  · left
    refine ⟨hmem, ?_⟩
    have hm2 : m ∈ as ++ [w] := by
      rcases List.mem_append.mp hm with h | h
      · exact h
      · exact absurd hmem (hbef2 m (List.mem_reverse.mp h))
    rw [List.indexOf_append_of_mem hm2]
    have hreassoc : ancestors G s = (as ++ [w]) ++ bs := by
      rw [hsplit]
      simp
    rw [hreassoc, List.indexOf_append_of_mem hm2]
  · right
    refine ⟨hmem, ?_⟩
    have hmas2 : m ∈ as2 := by
      rcases List.mem_append.mp hm with h | h
      · exfalso
        rcases List.mem_append.mp h with h2 | h2
        · exact hmem (hsplit ▸ List.mem_append_left _ h2)
        · rw [List.mem_singleton] at h2
          refine hmem ?_
          rw [hsplit, h2]
          exact List.mem_append_right as (List.mem_cons_self w bs)
      · exact List.mem_reverse.mp h
    have hmt : m ∈ ancestors G t := by
      rw [hsplit2]
      exact List.mem_append_left _ hmas2
    have hsufm : ancestors G m <:+ ancestors G t :=
      ancestors_suffix_of_mem G hwf _ t rfl ht m hmt
    obtain ⟨pre, hpre⟩ := hsufm
    have hnd_pre : (pre ++ ancestors G m).Nodup := hpre ▸ hndt
    have hm_not_pre : m ∉ pre := fun hp =>
      (List.disjoint_of_nodup_append hnd_pre hp) (mem_ancestors_self G m)
    -- positions in the ancestor chain of t
    have hq1 : (ancestors G t).indexOf m = as2.indexOf m := by
      rw [hsplit2]
      exact List.indexOf_append_of_mem hmas2
    have hq2 : (ancestors G t).indexOf m = pre.length := by
      rw [← hpre, List.indexOf_append_of_not_mem hm_not_pre,
        indexOf_head_zero (ancestors_head G m)]
      omega
    have hw1 : (ancestors G t).indexOf w = as2.length := by
      rw [hsplit2, List.indexOf_append_of_not_mem hw_not_as2,
        List.indexOf_cons_self]
      omega
    -- w lies on the chain of m
    have hwm : w ∈ ancestors G m := by
      have hwL : w ∈ pre ++ ancestors G m := hpre ▸ hwt
      rcases List.mem_append.mp hwL with hcase | hcase
      · exfalso
        have hlt : pre.indexOf w < pre.length :=
          List.indexOf_lt_length.mpr hcase
        have : (ancestors G t).indexOf w = pre.indexOf w := by
          rw [← hpre]
          exact List.indexOf_append_of_mem hcase
        have hqlt : as2.indexOf m < as2.length :=
          List.indexOf_lt_length.mpr hmas2
        omega
      · exact hcase
    have hw2 : (ancestors G t).indexOf w =
        pre.length + (ancestors G m).indexOf w := by
      rw [← hpre]
      have hw_not_pre : w ∉ pre := fun hp => by
        have hlt : pre.indexOf w < pre.length :=
          List.indexOf_lt_length.mpr hp
        have : (ancestors G t).indexOf w = pre.indexOf w := by
          rw [← hpre]
          exact List.indexOf_append_of_mem hp
        have hqlt : as2.indexOf m < as2.length :=
          List.indexOf_lt_length.mpr hmas2
        omega
      exact List.indexOf_append_of_not_mem hw_not_pre
    -- the found lowest common ancestor of s and m is w
    refine ⟨w, ?_, ?_⟩
    · apply List.find?_eq_some.mpr
      refine ⟨by simpa using hwm, as, bs, hsplit, ?_⟩
      intro a ha
      have : a ∉ ancestors G m := fun ham =>
        hbef a ha (by rw [← hpre]; exact List.mem_append_right pre ham)
      simpa using this
    · have hnot_up : m ∉ as ++ [w] := by
        intro hcase
        rcases List.mem_append.mp hcase with h2 | h2
        · exact hmem (hsplit ▸ List.mem_append_left _ h2)
        · rw [List.mem_singleton] at h2
          refine hmem ?_
          rw [hsplit, h2]
          exact List.mem_append_right as (List.mem_cons_self w bs)
      rw [List.indexOf_append_of_not_mem hnot_up]
      have has_idx : (ancestors G s).indexOf w = as.length := by
        rw [hsplit, List.indexOf_append_of_not_mem hw_not_as,
          List.indexOf_cons_self]
        omega
      have hnd_as2 : as2.Nodup := (List.nodup_append.mp hndt2).1
      have hrev := indexOf_reverse_sum hnd_as2 hmas2
      have hqlt : as2.indexOf m < as2.length :=
        List.indexOf_lt_length.mpr hmas2
      simp only [List.length_append, List.length_singleton]
      omega

theorem indexOf_dropLast {l : List Nat} {m : Nat} (hm : m ∈ l.dropLast) :
    l.indexOf m = l.dropLast.indexOf m := by
  induction l with
  | nil => simp at hm
  | cons a rest ih =>
    cases rest with
    | nil => simp at hm
    | cons b rest2 =>
      rw [List.dropLast_cons₂] at hm ⊢
      by_cases hma : a = m
      · subst hma
        rw [List.indexOf_cons_self, List.indexOf_cons_self]
      · rw [List.indexOf_cons_ne _ hma, List.indexOf_cons_ne _ hma]
        have hm2 : m ∈ (b :: rest2).dropLast := by
          rcases List.mem_cons.mp hm with h | h
          · exact absurd h.symm hma
          · exact h
        rw [ih hm2]

theorem mem_interior_mem {l : List Nat} {m : Nat} (hm : m ∈ interior l) :
    m ∈ l := by
  unfold interior at hm
  exact (List.drop_sublist 1 l).mem ((List.dropLast_sublist _).mem hm)

theorem indexOf_interior {l : List Nat} {m : Nat} (hnd : l.Nodup)
    (hm : m ∈ interior l) : l.indexOf m = (interior l).indexOf m + 1 := by
  cases l with
  | nil => simp [interior] at hm
  | cons a rest =>
    have hrest : interior (a :: rest) = rest.dropLast := by
      unfold interior
      simp
    rw [hrest] at hm ⊢
    have hm_rest : m ∈ rest := (List.dropLast_sublist rest).mem hm
    have hma : a ≠ m := fun he =>
      (List.nodup_cons.mp hnd).1 (he ▸ hm_rest)
    rw [List.indexOf_cons_ne _ hma, indexOf_dropLast hm]

theorem shortest_path_nodup (G : DiGraph) (hwf : WF G) {s t : Nat}
    (hs : s ∈ G.nodeIds) (ht : t ∈ G.nodeIds) :
    (shortest_path G s t).Nodup := by
  obtain ⟨w, as, bs, as2, hw, hsplit, hsplit2, hancw, hbef, hbef2, hpath⟩ :=
    lca_spec G hwf hs ht
  have hnds : (ancestors G s).Nodup := ancestors_nodup G hwf _ s rfl hs
  have hndt : (ancestors G t).Nodup := ancestors_nodup G hwf _ t rfl ht
  have hnd_as : as.Nodup := (List.nodup_append.mp (hsplit ▸ hnds)).1
  have hnd_as2 : as2.Nodup := (List.nodup_append.mp (hsplit2 ▸ hndt)).1
  have hwt : w ∈ ancestors G t := by
    rw [hsplit2]
    exact List.mem_append_right as2 (List.mem_cons_self w bs)
  have hws : w ∈ ancestors G s := by
    rw [hsplit]
    exact List.mem_append_right as (List.mem_cons_self w bs)
  rw [hpath]
  refine List.Nodup.append (List.Nodup.append hnd_as
    (List.nodup_singleton w) ?_) (List.nodup_reverse.mpr hnd_as2) ?_
  · intro a ha hb
    rw [List.mem_singleton] at hb
    exact hbef a ha (hb ▸ hwt)
  · intro a ha hb
    have ha2 : a ∈ ancestors G s := by
      rcases List.mem_append.mp ha with h | h
      · rw [hsplit]
        exact List.mem_append_left _ h
      · rw [List.mem_singleton] at h
        exact h ▸ hws
    exact hbef2 a (List.mem_reverse.mp hb) ha2

/-- A node strictly above another node on some chain has a child, hence is
no terminal. -/
theorem ancestor_has_child (G : DiGraph) (hwf : WF G) :
    ∀ (L : Nat) (y : Nat), (ancestors G y).length = L → y ∈ G.nodeIds →
      ∀ m ∈ ancestors G y, m ≠ y → succs G m ≠ [] := by
  intro L
  induction L using Nat.strong_induction_on with
  | _ L ih =>
    intro y hL hy m hm hne
    by_cases hy0 : y = 0
    · subst hy0
      rw [ancestors_zero G hwf] at hm
      rw [List.mem_singleton] at hm
      exact absurd hm hne
    · obtain ⟨p, hp, hpids, hcons⟩ := ancestors_cons G hwf hy hy0
      rcases List.mem_cons.mp (hcons ▸ hm) with h | h
      · exact absurd h hne
      · by_cases hmp : m = p
        · subst hmp
          obtain ⟨e, he, he1, he2⟩ : ∃ e ∈ G.edges, e.1 = m ∧ e.2.1 = y := by
            unfold parentOf at hp
            cases hhead : (G.edges.filter (fun e => e.2.1 = y)).head? with
            | none => rw [hhead] at hp; exact Option.noConfusion hp
            | some e =>
              rw [hhead] at hp
              simp only [Option.map_some', Option.some.injEq] at hp
              have he2 : e ∈ G.edges.filter (fun e => e.2.1 = y) :=
                List.mem_of_mem_head? hhead
              exact ⟨e, List.mem_of_mem_filter he2, hp,
                by simpa using List.of_mem_filter he2⟩
          intro hsucc
          have : e.2.1 ∈ succs G m := by
            unfold succs
            exact List.mem_map_of_mem _ (List.mem_filter.mpr
              ⟨he, by simpa using he1⟩)
          rw [hsucc] at this
          exact List.not_mem_nil _ this
        · have hlen : (ancestors G p).length < L := by
            rw [← hL, hcons]; simp
          exact ih _ hlen p rfl hpids m h hmp

/-- A terminal is on no other node's ancestor chain. -/
theorem terminal_not_ancestor (G : DiGraph) (hwf : WF G) {y m : Nat}
    (hy : y ∈ G.nodeIds) (hterm : isTerminal G m = true)
    (hm : m ∈ ancestors G y) : m = y := by
  by_contra hne
  have hchild := ancestor_has_child G hwf _ y rfl hy m hm hne
  have hmids : m ∈ G.nodeIds := mem_ancestors_ids G hwf hy m hm
  exact hchild ((hwf.terminal_iff m hmids).mp hterm)

/-- Between two distinct terminals the interior of the constituency path is
non-empty (two terminals are never adjacent). -/
theorem interior_path_ne_nil (G : DiGraph) (hwf : WF G) {h n : Nat}
    (hh : h ∈ G.nodeIds) (hn : n ∈ G.nodeIds) (hhn : h ≠ n)
    (hth : isTerminal G h = true) (htn : isTerminal G n = true) :
    interior (shortest_path G h n) ≠ [] := by
  obtain ⟨w, as, bs, as2, hw, hsplit, hsplit2, hancw, hbef, hbef2, hpath⟩ :=
    lca_spec G hwf hh hn
  have haslen : as ≠ [] := by
    rintro rfl
    have : w = h := by
      have := ancestors_head G h
      rw [hsplit] at this
      simpa using this
    subst this
    have hwn : w ∈ ancestors G n := by
      rw [hsplit2]
      exact List.mem_append_right as2 (List.mem_cons_self w bs)
    exact hhn (terminal_not_ancestor G hwf hn hth hwn)
  have has2len : as2 ≠ [] := by
    rintro rfl
    have : w = n := by
      have := ancestors_head G n
      rw [hsplit2] at this
      simpa using this
    subst this
    have hwh : w ∈ ancestors G h := by
      rw [hsplit]
      exact List.mem_append_right as (List.mem_cons_self w bs)
    exact hhn (terminal_not_ancestor G hwf hh htn hwh).symm
  have hlen : 3 ≤ (shortest_path G h n).length := by
    rw [hpath]
    simp only [List.length_append, List.length_singleton,
      List.length_reverse]
    have h1 : 1 ≤ as.length := List.length_pos.mpr haslen
    have h2 : 1 ≤ as2.length := List.length_pos.mpr has2len
    omega
  intro hnil
  have := interior_length (shortest_path G h n)
  rw [hnil] at this
  simp at this
  omega

/-- A node shared by the interiors of two paths out of the same endpoint
`h` sits at the same position in both. -/
theorem spine_indexOf_eq (G : DiGraph) (hwf : WF G) {h n x m : Nat}
    (hh : h ∈ G.nodeIds) (hn : n ∈ G.nodeIds) (hx : x ∈ G.nodeIds)
    (hm1 : m ∈ interior (shortest_path G h n))
    (hm2 : m ∈ interior (shortest_path G h x)) :
    (interior (shortest_path G h x)).indexOf m =
      (interior (shortest_path G h n)).indexOf m := by
  have hp1 : m ∈ shortest_path G h n := mem_interior_mem hm1
  have hp2 : m ∈ shortest_path G h x := mem_interior_mem hm2
  have hnd1 := shortest_path_nodup G hwf hh hn
  have hnd2 := shortest_path_nodup G hwf hh hx
  have e1 := indexOf_interior hnd1 hm1
  have e2 := indexOf_interior hnd2 hm2
  have heq : (shortest_path G h n).indexOf m =
      (shortest_path G h x).indexOf m := by
    rcases path_indexOf G hwf hh hn hp1 with ⟨ha1, hi1⟩ | ⟨ha1, w1, hw1, hi1⟩ <;>
      rcases path_indexOf G hwf hh hx hp2 with ⟨ha2, hi2⟩ | ⟨ha2, w2, hw2, hi2⟩
    · rw [hi1, hi2]
    · exact absurd ha1 ha2
    · exact absurd ha2 ha1
    · rw [hi1, hi2]
      have hww : w1 = w2 := by
        have := hw1.symm.trans hw2
        simpa using this
      rw [hww]
  omega

/-! ## Reachability: the breadth-first closure computes `Reach` -/

theorem succs_iff_step (G : DiGraph) (a x : Nat) :
    x ∈ succs G a ↔ Step G a x := by
  unfold succs Step
  constructor
  · intro h
    rcases List.mem_map.mp h with ⟨e, he, hx⟩
    have h1 := List.mem_of_mem_filter he
    have h2 : e.1 = a := by simpa using List.of_mem_filter he
    exact ⟨e.2.2, by rw [← hx, ← h2]; simpa using h1⟩
  · rintro ⟨l, hl⟩
    exact List.mem_map_of_mem _ (List.mem_filter.mpr ⟨hl, by simp⟩)

theorem reachAux_succ_eq (G : DiGraph) (fuel : Nat) (acc : List Nat) :
    reachAux G (fuel + 1) acc =
      if ((acc.flatMap (succs G)).filter
          (fun m => ¬ acc.contains m)).dedup = []
      then acc
      else reachAux G fuel
        (acc ++ ((acc.flatMap (succs G)).filter
          (fun m => ¬ acc.contains m)).dedup) := rfl

theorem reachAux_sound (G : DiGraph) (v : Nat) :
    ∀ (fuel : Nat) (acc : List Nat), (∀ x ∈ acc, Reach G v x) →
      ∀ m ∈ reachAux G fuel acc, Reach G v m := by
  intro fuel
  induction fuel with
  | zero => intro acc hacc m hm; exact hacc m hm
  | succ fuel ih =>
    intro acc hacc m hm
    rw [reachAux_succ_eq] at hm
    by_cases hnew : ((acc.flatMap (succs G)).filter
        (fun m => ¬ acc.contains m)).dedup = []
    · rw [if_pos hnew] at hm
      exact hacc m hm
    · rw [if_neg hnew] at hm
      refine ih _ ?_ m hm
      intro x hx
      rcases List.mem_append.mp hx with h | h
      · exact hacc x h
      · have h2 : x ∈ (acc.flatMap (succs G)).filter
            (fun m => ¬ acc.contains m) := List.mem_dedup.mp h
        have h3 : x ∈ acc.flatMap (succs G) := List.mem_of_mem_filter h2
        rcases List.mem_flatMap.mp h3 with ⟨a, ha, hxa⟩
        exact Relation.ReflTransGen.tail (hacc a ha)
          ((succs_iff_step G a x).mp hxa)

theorem reachAux_complete (G : DiGraph)
    (hclosed : ∀ e ∈ G.edges, e.2.1 ∈ G.nodeIds) (v : Nat) :
    ∀ (fuel : Nat) (acc : List Nat), acc.Nodup →
      (∀ x ∈ acc, x ∈ v :: G.nodeIds) →
      G.nodeIds.length + 1 ≤ fuel + acc.length →
      (∀ x ∈ reachAux G fuel acc, ∀ y, Step G x y →
        y ∈ reachAux G fuel acc) ∧
      acc ⊆ reachAux G fuel acc := by
  intro fuel
  induction fuel with
  | zero =>
    intro acc hnd hsub hlen
    simp only [reachAux]
    refine ⟨?_, fun x hx => hx⟩
    intro x hx y hstep
    have hy : y ∈ G.nodeIds := by
      rcases hstep with ⟨l, hl⟩
      exact hclosed _ hl
    have hperm : acc.Perm (v :: G.nodeIds) := by
      refine (List.subperm_of_subset hnd hsub).perm_of_length_le ?_
      simp only [List.length_cons]
      omega
    exact hperm.mem_iff.mpr (List.mem_cons_of_mem v hy)
  | succ fuel ih =>
    intro acc hnd hsub hlen
    rw [reachAux_succ_eq]
    by_cases hnew : ((acc.flatMap (succs G)).filter
        (fun m => ¬ acc.contains m)).dedup = []
    · rw [if_pos hnew]
      refine ⟨?_, fun x hx => hx⟩
      intro x hx y hstep
      by_contra hy
      have h1 : y ∈ acc.flatMap (succs G) :=
        List.mem_flatMap.mpr ⟨x, hx, (succs_iff_step G x y).mpr hstep⟩
      have h2 : y ∈ (acc.flatMap (succs G)).filter
          (fun m => ¬ acc.contains m) :=
        List.mem_filter.mpr ⟨h1, by simpa using hy⟩
      have h3 : y ∈ ((acc.flatMap (succs G)).filter
          (fun m => ¬ acc.contains m)).dedup := List.mem_dedup.mpr h2
      rw [hnew] at h3
      exact List.not_mem_nil y h3
    · rw [if_neg hnew]
      set new := ((acc.flatMap (succs G)).filter
        (fun m => ¬ acc.contains m)).dedup with hnewdef
      have hnd_new : new.Nodup := List.nodup_dedup _
      have hdisj : ∀ x ∈ new, x ∉ acc := by
        intro x hx
        have h2 := List.of_mem_filter (List.mem_dedup.mp hx)
        simpa using h2
      have hnd2 : (acc ++ new).Nodup :=
        List.Nodup.append hnd hnd_new (fun a ha hb => hdisj a hb ha)
      have hsub2 : ∀ x ∈ acc ++ new, x ∈ v :: G.nodeIds := by
        intro x hx
        rcases List.mem_append.mp hx with h | h
        · exact hsub x h
        · have h3 : x ∈ acc.flatMap (succs G) :=
            List.mem_of_mem_filter (List.mem_dedup.mp h)
          rcases List.mem_flatMap.mp h3 with ⟨a, ha, hxa⟩
          rcases (succs_iff_step G a x).mp hxa with ⟨l, hl⟩
          exact List.mem_cons_of_mem v (hclosed _ hl)
      have hlen2 : G.nodeIds.length + 1 ≤ fuel + (acc ++ new).length := by
        have hpos : 1 ≤ new.length := List.length_pos.mpr hnew
        simp only [List.length_append]
        omega
      obtain ⟨hcl, hsubres⟩ := ih (acc ++ new) hnd2 hsub2 hlen2
      exact ⟨hcl, fun x hx => hsubres (List.mem_append_left new hx)⟩

/-- `reachableFrom` computes exactly the reachability relation (for graphs
whose edge targets are nodes, which all graphs in the pipeline are). -/
theorem mem_reachableFrom_iff (G : DiGraph)
    (hclosed : ∀ e ∈ G.edges, e.2.1 ∈ G.nodeIds) (v m : Nat) :
    m ∈ reachableFrom G v ↔ Reach G v m := by
  constructor
  · intro h
    exact reachAux_sound G v _ [v]
      (fun x hx => by
        rw [List.mem_singleton] at hx
        exact hx ▸ Relation.ReflTransGen.refl) m h
  · intro h
    have hlen : G.nodeIds.length + 1 ≤ G.nodes.length + ([v] : List Nat).length := by
      rw [nodeIds_length]
      simp
    obtain ⟨hcl, hsub⟩ := reachAux_complete G hclosed v G.nodes.length [v]
      (List.nodup_singleton v) (fun x hx => by
        rw [List.mem_singleton] at hx
        exact hx ▸ List.mem_cons_self v _) hlen
    unfold reachableFrom
    induction h with
    | refl => exact hsub (List.mem_singleton_self v)
    | tail hr hstep ihh => exact hcl _ ihh _ hstep

theorem parentOf_edge (G : DiGraph) {x p : Nat}
    (hp : parentOf G x = some p) : ∃ l, (p, x, l) ∈ G.edges := by
  unfold parentOf at hp
  cases hhead : (G.edges.filter (fun e => e.2.1 = x)).head? with
  | none => rw [hhead] at hp; exact Option.noConfusion hp
  | some e =>
    rw [hhead] at hp
    simp only [Option.map_some', Option.some.injEq] at hp
    have he : e ∈ G.edges.filter (fun e => e.2.1 = x) :=
      List.mem_of_mem_head? hhead
    have h1 := List.mem_of_mem_filter he
    have h2 : e.2.1 = x := by simpa using List.of_mem_filter he
    exact ⟨e.2.2, by rw [← hp, ← h2]; simpa using h1⟩

theorem parentOf_eq_of_edge (G : DiGraph) (hwf : WF G) {c b : Nat}
    {l : Option String} (he : (c, b, l) ∈ G.edges) :
    parentOf G b = some c := by
  have hb : b ∈ G.nodeIds := (hwf.edges_ok _ he).2.2
  have hb0 : b ≠ 0 := by
    rintro rfl
    have h0 := hwf.indeg_root
    unfold inDegree at h0
    have : (c, 0, l) ∈ G.edges.filter (fun e => e.2.1 = 0) :=
      List.mem_filter.mpr ⟨he, by simp⟩
    rw [List.length_eq_zero.mp h0] at this
    exact List.not_mem_nil _ this
  have h1 := hwf.indeg_one b hb hb0
  unfold inDegree at h1
  obtain ⟨e, hfe⟩ := List.length_eq_one.mp h1
  have hmem : (c, b, l) ∈ G.edges.filter (fun e => e.2.1 = b) :=
    List.mem_filter.mpr ⟨he, by simp⟩
  rw [hfe] at hmem
  rw [List.mem_singleton] at hmem
  unfold parentOf
  rw [hfe, ← hmem]
  rfl

/-- On a well-formed graph, directed reachability is exactly the ancestor
relation. -/
theorem reach_iff_ancestor (G : DiGraph) (hwf : WF G) {a b : Nat}
    (hb : b ∈ G.nodeIds) : Reach G a b ↔ a ∈ ancestors G b := by
  constructor
  · intro h
    induction h with
    | refl => exact mem_ancestors_self G a
    | @tail c b2 hr hstep ihh =>
      rcases hstep with ⟨l, hl⟩
      have hc : c ∈ G.nodeIds := (hwf.edges_ok _ hl).2.1
      have hb2 : b2 ∈ G.nodeIds := (hwf.edges_ok _ hl).2.2
      have hpar : parentOf G b2 = some c := parentOf_eq_of_edge G hwf hl
      have hb20 : b2 ≠ 0 := by
        rintro rfl
        rw [parentOf_zero G hwf] at hpar
        exact Option.noConfusion hpar
      obtain ⟨p, hp, hpids, hcons⟩ := ancestors_cons G hwf hb2 hb20
      rw [hp] at hpar
      have hpc : p = c := by simpa using hpar
      rw [hcons, hpc]
      exact List.mem_cons_of_mem b2 (ihh hc)
  · intro h
    have key : ∀ (L : Nat) (b : Nat), (ancestors G b).length = L →
        b ∈ G.nodeIds → a ∈ ancestors G b → Reach G a b := by
      intro L
      induction L using Nat.strong_induction_on with
      | _ L ih =>
        intro b hL hbids hmem
        by_cases hb0 : b = 0
        · subst hb0
          rw [ancestors_zero G hwf] at hmem
          rw [List.mem_singleton] at hmem
          exact hmem ▸ Relation.ReflTransGen.refl
        · obtain ⟨p, hp, hpids, hcons⟩ := ancestors_cons G hwf hbids hb0
          rcases List.mem_cons.mp (hcons ▸ hmem) with h2 | h2
          · exact h2 ▸ Relation.ReflTransGen.refl
          · have hlen : (ancestors G p).length < L := by
              rw [← hL, hcons]; simp
            obtain ⟨l, hl⟩ := parentOf_edge G hp
            exact Relation.ReflTransGen.tail (ih _ hlen p rfl hpids h2)
              ⟨l, hl⟩
    exact key _ b rfl hb h

/-! ## `getCandidate`: minimum of the candidate set -/

theorem insertionSort_head_min (G : DiGraph) (l : List Nat) (h : Nat)
    (hh : (l.insertionSort
      (fun a b => startOf G a ≤ startOf G b)).head? = some h) :
    h ∈ l ∧ ∀ x ∈ l, startOf G h ≤ startOf G x := by
  have : IsTotal Nat (fun a b => startOf G a ≤ startOf G b) :=
    ⟨fun a b => Nat.le_total _ _⟩
  have : IsTrans Nat (fun a b => startOf G a ≤ startOf G b) :=
    ⟨fun a b c => Nat.le_trans⟩
  have hsorted := List.sorted_insertionSort
    (fun a b => startOf G a ≤ startOf G b) l
  have hperm := List.perm_insertionSort
    (fun a b => startOf G a ≤ startOf G b) l
  cases hsort : l.insertionSort (fun a b => startOf G a ≤ startOf G b) with
  | nil => rw [hsort] at hh; exact absurd hh (by simp)
  | cons x xs =>
    rw [hsort] at hh hperm hsorted
    simp only [List.head?_cons, Option.some.injEq] at hh
    subst hh
    rw [List.sorted_cons] at hsorted
    constructor
    · exact hperm.mem_iff.mp (List.mem_cons_self x xs)
    · intro y hy
      rcases List.mem_cons.mp (hperm.symm.mem_iff.mp hy) with h2 | h2
      · rw [h2]
      · exact hsorted.1 y h2

theorem insertionSort_head_none (G : DiGraph) (l : List Nat)
    (hh : (l.insertionSort
      (fun a b => startOf G a ≤ startOf G b)).head? = none) : l = [] := by
  have hperm := List.perm_insertionSort
    (fun a b => startOf G a ≤ startOf G b) l
  rw [List.head?_eq_none_iff] at hh
  rw [hh] at hperm
  exact hperm.nil_eq.symm

/-- What `getCandidate G level s = some h` says: `h` is a reachable
terminal starting before `s`, minimal by `start` among those. -/
theorem getCandidate_some_spec (G : DiGraph)
    (hclosed : ∀ e ∈ G.edges, e.2.1 ∈ G.nodeIds) {level s h : Nat}
    (hc : getCandidate G level s = some h) :
    Reach G level h ∧ isTerminal G h = true ∧ startOf G h < s ∧
      ∀ m, Reach G level m → isTerminal G m = true → startOf G m < s →
        startOf G h ≤ startOf G m := by
  unfold getCandidate at hc
  obtain ⟨hmem, hmin⟩ := insertionSort_head_min G _ h hc
  have hmemiff : ∀ x, x ∈ ((reachableFrom G level).filter
      (fun n => isTerminal G n)).filter (fun n => startOf G n < s) ↔
      Reach G level x ∧ isTerminal G x = true ∧ startOf G x < s := by
    intro x
    rw [List.mem_filter, List.mem_filter, mem_reachableFrom_iff G hclosed]
    constructor
    · rintro ⟨⟨h1, h2⟩, h3⟩
      exact ⟨h1, by simpa using h2, by simpa using h3⟩
    · rintro ⟨h1, h2, h3⟩
      exact ⟨⟨h1, by simpa using h2⟩, by simpa using h3⟩
  obtain ⟨h1, h2, h3⟩ := (hmemiff h).mp hmem
  exact ⟨h1, h2, h3, fun m hm ht hs =>
    hmin m ((hmemiff m).mpr ⟨hm, ht, hs⟩)⟩

/-- What `getCandidate G level s = none` says: no reachable terminal starts
before `s`. -/
theorem getCandidate_none_spec (G : DiGraph)
    (hclosed : ∀ e ∈ G.edges, e.2.1 ∈ G.nodeIds) {level s : Nat}
    (hc : getCandidate G level s = none) :
    ∀ m, Reach G level m → isTerminal G m = true → ¬ (startOf G m < s) := by
  unfold getCandidate at hc
  have hnil := insertionSort_head_none G _ hc
  intro m hm ht hs
  have : m ∈ ((reachableFrom G level).filter
      (fun n => isTerminal G n)).filter (fun n => startOf G n < s) := by
    rw [List.mem_filter, List.mem_filter]
    exact ⟨⟨(mem_reachableFrom_iff G hclosed level m).mpr hm,
      by simpa using ht⟩, by simpa using hs⟩
  rw [hnil] at this
  exact List.not_mem_nil m this

theorem isTerminal_mem_ids (G : DiGraph) {c : Nat}
    (h : isTerminal G c = true) : c ∈ G.nodeIds := by
  unfold isTerminal DiGraph.attrD DiGraph.attr at h
  cases hf : G.nodes.find? (fun p => p.1 = c) with
  | none => rw [hf] at h; simp at h
  | some pr =>
    have hmem := List.mem_of_find?_eq_some hf
    have hpc : pr.1 = c := by simpa using List.find?_some hf
    exact List.mem_map.mpr ⟨pr, hmem, hpc⟩

/-- `getRoot` returns the terminal with the globally smallest `start`. -/
theorem getRoot_spec (G : DiGraph)
    (hex : ∃ x ∈ G.nodeIds, isTerminal G x = true) :
    getRoot G ∈ G.nodeIds ∧ isTerminal G (getRoot G) = true ∧
      ∀ m ∈ G.nodeIds, isTerminal G m = true →
        startOf G (getRoot G) ≤ startOf G m := by
  obtain ⟨x, hx, hxt⟩ := hex
  have hxf : x ∈ G.nodeIds.filter (fun n => isTerminal G n) :=
    List.mem_filter.mpr ⟨hx, by simpa using hxt⟩
  unfold getRoot
  cases hh : ((G.nodeIds.filter (fun n => isTerminal G n)).insertionSort
      (fun a b => startOf G a ≤ startOf G b)).head? with
  | none =>
    have := insertionSort_head_none G _ hh
    rw [this] at hxf
    exact absurd hxf (List.not_mem_nil x)
  | some r =>
    obtain ⟨hrmem, hrmin⟩ := insertionSort_head_min G _ r hh
    rw [List.headD_eq_head?, hh]
    have hr1 := List.mem_of_mem_filter hrmem
    have hr2 : isTerminal G r = true := by
      simpa using List.of_mem_filter hrmem
    exact ⟨hr1, hr2, fun m hm hmt =>
      hrmin m (List.mem_filter.mpr ⟨hm, by simpa using hmt⟩)⟩

theorem getCandidate_isSome_of (G : DiGraph)
    (hclosed : ∀ e ∈ G.edges, e.2.1 ∈ G.nodeIds) {level s m : Nat}
    (hm : Reach G level m) (ht : isTerminal G m = true)
    (hs : startOf G m < s) : ∃ c, getCandidate G level s = some c := by
  cases hc : getCandidate G level s with
  | none => exact absurd hs (getCandidate_none_spec G hclosed hc m hm ht)
  | some c => exact ⟨c, rfl⟩

/-- If no terminal at all starts before `s`, the head-selection walk fails
at every starting point: it never finds a candidate, and runs off the root
(the modelled `IndexError`) or out of fuel. -/
theorem selectHeadAux_none (G : DiGraph)
    (hclosed : ∀ e ∈ G.edges, e.2.1 ∈ G.nodeIds) {s : Nat}
    (hno : ∀ c, isTerminal G c = true → ¬ (startOf G c < s)) :
    ∀ (fuel a : Nat), selectHeadAux G s fuel a = none := by
  intro fuel
  induction fuel with
  | zero => intro a; rfl
  | succ fuel ih =>
    intro a
    unfold selectHeadAux
    cases hc : getCandidate G a s with
    | some c =>
      obtain ⟨-, hct, hcs, -⟩ := getCandidate_some_spec G hclosed hc
      exact absurd hcs (hno c hct)
    | none =>
      cases hp : parentOf G a with
      | some p => exact ih p
      | none => rfl

/-- The head-selection loop equals the first hit of `getCandidate` along
the ancestor chain (given that the root level has a candidate, which makes
the walk stop at or before the root). -/
theorem selectHeadAux_eq_findSome (G : DiGraph) (hwf : WF G) (s : Nat)
    (hcand0 : ∃ c0, getCandidate G 0 s = some c0) :
    ∀ (fuel : Nat) (father : Nat), father ∈ G.nodeIds →
      (ancestors G father).length ≤ fuel →
      selectHeadAux G s fuel father =
        (ancestors G father).findSome? (fun a => getCandidate G a s) := by
  intro fuel
  induction fuel with
  | zero =>
    intro father hfids hlen
    exact absurd hlen (by
      have := chainAux_ne_nil G G.nodes.length father
      have hpos : 0 < (ancestors G father).length :=
        List.length_pos.mpr this
      omega)
  | succ fuel ih =>
    intro father hfids hlen
    by_cases hf0 : father = 0
    · subst hf0
      rw [ancestors_zero G hwf]
      obtain ⟨c0, hc0⟩ := hcand0
      show selectHeadAux G s (fuel + 1) 0 = _
      unfold selectHeadAux
      rw [hc0, List.findSome?_cons, hc0]
    · obtain ⟨p, hp, hpids, hcons⟩ := ancestors_cons G hwf hfids hf0
      rw [hcons]
      unfold selectHeadAux
      cases hc : getCandidate G father s with
      | some c => rw [List.findSome?_cons, hc]
      | none =>
        rw [List.findSome?_cons, hc, hp]
        refine ih p hpids ?_
        have : (ancestors G father).length =
            (ancestors G p).length + 1 := by
          rw [hcons]; simp
        omega

/-! ## C9: `selectHead` on the leftmost terminal fails -/

/-- C9: on a well-formed constituency graph, `selectHead` applied to the
leftmost terminal (the dependency root) finds no candidate at any ancestor
and fails (the Python loop dies on the root's nonexistent in-edge), and
`enrichAstWithDeps` never makes that call: its iteration list excludes the
root. -/
theorem selectHead_root_fails (G : DiGraph) (hwf : WF G)
    (hex : ∃ x ∈ G.nodeIds, isTerminal G x = true) :
    selectHead G (getRoot G) = none ∧
    getRoot G ∉ G.nodeIds.filter
      (fun n => n ≠ getRoot G && isTerminal G n) := by
  obtain ⟨hrids, hrterm, hrmin⟩ := getRoot_spec G hex
  have hclosed : ∀ e ∈ G.edges, e.2.1 ∈ G.nodeIds := fun e he =>
    (hwf.edges_ok e he).2.2
  constructor
  · have hno : ∀ c, isTerminal G c = true →
        ¬ (startOf G c < startOf G (getRoot G)) := by
      intro c hct hlt
      exact absurd hlt (Nat.not_lt.mpr
        (hrmin c (isTerminal_mem_ids G hct) hct))
    unfold selectHead
    cases hp : parentOf G (getRoot G) with
    | none => rfl
    | some father => exact selectHeadAux_none G hclosed hno _ father
  · intro hmem
    have := List.of_mem_filter hmem
    simp at this

/-- Witness for `selectHead_root_fails` on the example graph (root
terminal `def`, id 2). -/
theorem selectHead_root_fails_witness :
    selectHead exampleG (getRoot exampleG) = none ∧
    getRoot exampleG ∉ exampleG.nodeIds.filter
      (fun n => n ≠ getRoot exampleG && isTerminal exampleG n) :=
  selectHead_root_fails exampleG
    ⟨by decide, by decide, by decide, by decide, by decide, by decide,
      by decide, by decide, by decide⟩
    ⟨2, by decide, by decide⟩

/-! ## C3: specification of `selectHead` -/

/-- C3: on a well-formed constituency graph, `selectHead` at any terminal
other than the leftmost one succeeds and returns a terminal with strictly
smaller `start`; the result is the first hit of `getCandidate` along the
proper-ancestor chain (nearest ancestor whose subtree has a preceding
terminal), and at that ancestor it is the reachable preceding terminal with
the smallest `start`.  Repeated invocation agrees. -/
theorem selectHead_spec (G : DiGraph) (hwf : WF G) {n : Nat}
    (hterm : isTerminal G n = true) (hnroot : n ≠ getRoot G) :
    ∃ h, selectHead G n = some h ∧
      isTerminal G h = true ∧ startOf G h < startOf G n ∧
      selectHead G n = ((ancestors G n).drop 1).findSome?
        (fun a => getCandidate G a (startOf G n)) ∧
      (∃ a ∈ (ancestors G n).drop 1,
        getCandidate G a (startOf G n) = some h ∧
        IsCandidate G a (startOf G n) h ∧
        ∀ m, IsCandidate G a (startOf G n) m →
          startOf G h ≤ startOf G m) ∧
      (∀ o1 o2 : Option Nat, selectHead G n = o1 → selectHead G n = o2 →
        o1 = o2) := by
  have hn := isTerminal_mem_ids G hterm
  have hclosed : ∀ e ∈ G.edges, e.2.1 ∈ G.nodeIds := fun e he =>
    (hwf.edges_ok e he).2.2
  have hex : ∃ x ∈ G.nodeIds, isTerminal G x = true := ⟨n, hn, hterm⟩
  obtain ⟨hrids, hrterm, hrmin⟩ := getRoot_spec G hex
  have hstart_ne : startOf G (getRoot G) ≠ startOf G n := by
    intro heq
    refine hnroot ?_
    have hinj := List.inj_on_of_nodup_map hwf.starts_nodup
    exact (hinj (List.mem_filter.mpr ⟨hn, by simpa using hterm⟩)
      (List.mem_filter.mpr ⟨hrids, by simpa using hrterm⟩) heq.symm)
  have hrlt : startOf G (getRoot G) < startOf G n :=
    Nat.lt_of_le_of_ne (hrmin n hn hterm) hstart_ne
  have hreach0 : Reach G 0 (getRoot G) :=
    (reach_iff_ancestor G hwf hrids).mpr (zero_mem_ancestors G hwf hrids)
  have hcand0 := getCandidate_isSome_of G hclosed hreach0 hrterm hrlt
  have hn0 : n ≠ 0 := by
    rintro rfl
    rw [hwf.root_nonterminal] at hterm
    exact Bool.false_ne_true hterm
  obtain ⟨father, hp, hpids, hcons⟩ := ancestors_cons G hwf hn hn0
  have hfuel : (ancestors G father).length ≤ G.nodes.length :=
    ancestors_length_le G hwf hpids
  have hsel : selectHead G n = (ancestors G father).findSome?
      (fun a => getCandidate G a (startOf G n)) := by
    unfold selectHead
    rw [hp]
    exact selectHeadAux_eq_findSome G hwf _ hcand0 _ father hpids hfuel
  have hdrop : (ancestors G n).drop 1 = ancestors G father := by
    rw [hcons]
    rfl
  cases hres : (ancestors G father).findSome?
      (fun a => getCandidate G a (startOf G n)) with
  | none =>
    exfalso
    rw [List.findSome?_eq_none_iff] at hres
    obtain ⟨c0, hc0⟩ := hcand0
    rw [hres 0 (zero_mem_ancestors G hwf hpids)] at hc0
    exact Option.noConfusion hc0
  | some h =>
    obtain ⟨a, hamem, hca⟩ := List.exists_of_findSome?_eq_some hres
    obtain ⟨h1, h2, h3, h4⟩ := getCandidate_some_spec G hclosed hca
    refine ⟨h, by rw [hsel, hres], h2, h3, by rw [hdrop]; exact hsel,
      ⟨a, by rw [hdrop]; exact hamem, hca, ⟨h1, h2, h3⟩,
        fun m hm => h4 m hm.1 hm.2.1 hm.2.2⟩,
      fun o1 o2 e1 e2 => e1 ▸ e2 ▸ rfl⟩

/-- Witness for `selectHead_spec` at terminal `pass` (id 9) of the example
graph. -/
theorem selectHead_spec_witness :
    isTerminal exampleG 9 = true ∧ (9 : Nat) ≠ getRoot exampleG ∧
    (∃ h, selectHead exampleG 9 = some h ∧
      isTerminal exampleG h = true ∧
      startOf exampleG h < startOf exampleG 9 ∧
      selectHead exampleG 9 = ((ancestors exampleG 9).drop 1).findSome?
        (fun a => getCandidate exampleG a (startOf exampleG 9)) ∧
      (∃ a ∈ (ancestors exampleG 9).drop 1,
        getCandidate exampleG a (startOf exampleG 9) = some h ∧
        IsCandidate exampleG a (startOf exampleG 9) h ∧
        ∀ m, IsCandidate exampleG a (startOf exampleG 9) m →
          startOf exampleG h ≤ startOf exampleG m) ∧
      (∀ o1 o2 : Option Nat, selectHead exampleG 9 = o1 →
        selectHead exampleG 9 = o2 → o1 = o2)) :=
  ⟨by decide, by decide,
    selectHead_spec exampleG
      ⟨by decide, by decide, by decide, by decide, by decide, by decide,
        by decide, by decide, by decide⟩
      (by decide) (by decide)⟩

/-! ## Invariance of head selection under dependency-edge insertion

`enrichAstWithDeps` runs `selectHead` on the graph it is mutating.  The
following lemmas show the already-inserted dependency edges never change
the outcome, because any extra reachability they provide leads only to
terminals preceded by an already-reachable terminal with smaller `start`. -/

theorem isTerminal_ext {G G' : DiGraph} (hn : G'.nodes = G.nodes) :
    isTerminal G' = isTerminal G := by
  funext x
  unfold isTerminal DiGraph.attrD DiGraph.attr
  rw [hn]

theorem startOf_ext {G G' : DiGraph} (hn : G'.nodes = G.nodes) :
    startOf G' = startOf G := by
  funext x
  unfold startOf DiGraph.attrD DiGraph.attr
  rw [hn]

theorem nodeIds_ext {G G' : DiGraph} (hn : G'.nodes = G.nodes) :
    G'.nodeIds = G.nodeIds := by
  unfold DiGraph.nodeIds
  rw [hn]

theorem parentOf_ext_nonterminal (G : DiGraph) {G' : DiGraph}
    (hext : DepExtension G G') {x : Nat} (hx : isTerminal G x = false) :
    parentOf G' x = parentOf G x := by
  obtain ⟨hn, extra, he, hprop⟩ := hext
  unfold parentOf
  rw [he, List.filter_append]
  have hnil : extra.filter (fun e => e.2.1 = x) = [] := by
    rw [List.filter_eq_nil_iff]
    intro e hee
    have hterm := (hprop e hee).2.1
    simp only [decide_eq_true_eq]
    intro heq
    rw [heq, hx] at hterm
    exact Bool.false_ne_true hterm
  rw [hnil, List.append_nil]

theorem parentOf_ext_indeg (G : DiGraph) {G' : DiGraph}
    (hext : DepExtension G G') {x : Nat}
    (hne : G.edges.filter (fun e => e.2.1 = x) ≠ []) :
    parentOf G' x = parentOf G x := by
  obtain ⟨hn, extra, he, hprop⟩ := hext
  unfold parentOf
  rw [he, List.filter_append]
  cases hc : G.edges.filter (fun e => e.2.1 = x) with
  | nil => exact absurd hc hne
  | cons a rest => rfl

theorem edges_closed_of_wf (G : DiGraph) (hwf : WF G) :
    ∀ e ∈ G.edges, e.2.1 ∈ G.nodeIds := fun e he =>
  (hwf.edges_ok e he).2.2

theorem edges_closed_ext (G : DiGraph) (hwf : WF G) {G' : DiGraph}
    (hext : DepExtension G G') : ∀ e ∈ G'.edges, e.2.1 ∈ G'.nodeIds := by
  obtain ⟨hn, extra, he, hprop⟩ := hext
  intro e hee
  rw [he] at hee
  rw [nodeIds_ext hn]
  rcases List.mem_append.mp hee with h | h
  · exact (hwf.edges_ok e h).2.2
  · exact isTerminal_mem_ids G (hprop e h).2.1

/-- Reachability in the extended graph decomposes: either the target was
already reachable, or it is a terminal preceded (in `start` order) by an
already-reachable terminal. -/
theorem reach_ext (G : DiGraph) (hwf : WF G) {G' : DiGraph}
    (hext : DepExtension G G') {v m : Nat} (hm : Reach G' v m) :
    Reach G v m ∨ (isTerminal G m = true ∧ ∃ t2, Reach G v t2 ∧
      isTerminal G t2 = true ∧ startOf G t2 < startOf G m) := by
  obtain ⟨hn, extra, he, hprop⟩ := hext
  induction hm with
  | refl => exact Or.inl Relation.ReflTransGen.refl
  | @tail y m2 hr hstep ihh =>
    rcases hstep with ⟨l, hl⟩
    rw [he] at hl
    rcases List.mem_append.mp hl with hG | hX
    · rcases ihh with hy | ⟨hyterm, t2, ht2r, ht2t, ht2s⟩
      · exact Or.inl (Relation.ReflTransGen.tail hy ⟨l, hG⟩)
      · exfalso
        have hyids : y ∈ G.nodeIds := isTerminal_mem_ids G hyterm
        have hsucc : succs G y = [] := (hwf.terminal_iff y hyids).mp hyterm
        have : m2 ∈ succs G y := (succs_iff_step G y m2).mpr ⟨l, hG⟩
        rw [hsucc] at this
        exact List.not_mem_nil _ this
    · obtain ⟨hyterm, hmterm, hys⟩ := hprop _ hX
      rcases ihh with hy | ⟨-, t2, ht2r, ht2t, ht2s⟩
      · exact Or.inr ⟨hmterm, y, hy, hyterm, hys⟩
      · exact Or.inr ⟨hmterm, t2, ht2r, ht2t, Nat.lt_trans ht2s hys⟩

/-- The already-inserted dependency edges never change `getCandidate`. -/
theorem getCandidate_ext (G : DiGraph) (hwf : WF G) {G' : DiGraph}
    (hext : DepExtension G G') (v s : Nat) :
    getCandidate G' v s = getCandidate G v s := by
  obtain ⟨hn, extra, he, hprop⟩ := hext
  have hclosed := edges_closed_of_wf G hwf
  have hclosed' := edges_closed_ext G hwf ⟨hn, extra, he, hprop⟩
  have hmono : ∀ x y, Reach G x y → Reach G' x y := by
    intro x y hxy
    induction hxy with
    | refl => exact Relation.ReflTransGen.refl
    | tail hr hstep ihh =>
      rcases hstep with ⟨l, hl⟩
      refine Relation.ReflTransGen.tail ihh ⟨l, ?_⟩
      rw [he]
      exact List.mem_append_left extra hl
  cases hc : getCandidate G v s with
  | some h =>
    obtain ⟨h1, h2, h3, h4⟩ := getCandidate_some_spec G hclosed hc
    cases hc' : getCandidate G' v s with
    | none =>
      exfalso
      have := getCandidate_none_spec G' hclosed' hc' h (hmono v h h1)
      rw [isTerminal_ext hn, startOf_ext hn] at this
      exact this h2 h3
    | some h' =>
      obtain ⟨h1', h2', h3', h4'⟩ := getCandidate_some_spec G' hclosed' hc'
      rw [isTerminal_ext hn] at h2'
      rw [startOf_ext hn] at h3' h4'
      rcases reach_ext G hwf ⟨hn, extra, he, hprop⟩ h1' with hr | hr
      · -- h' is already G-reachable; both are minima of the same set
        have hle1 : startOf G h ≤ startOf G h' := h4 h' hr h2' h3'
        have hle2 : startOf G h' ≤ startOf G h := by
          have := h4' h (hmono v h h1)
          rw [isTerminal_ext hn] at this
          exact this h2 h3
        have heq : startOf G h' = startOf G h := Nat.le_antisymm hle2 hle1
        have hinj := List.inj_on_of_nodup_map hwf.starts_nodup
        have hh'ids := isTerminal_mem_ids G h2'
        have hhids := isTerminal_mem_ids G h2
        rw [hinj (List.mem_filter.mpr ⟨hh'ids, by simpa using h2'⟩)
          (List.mem_filter.mpr ⟨hhids, by simpa using h2⟩) heq]
      · exfalso
        obtain ⟨-, t2, ht2r, ht2t, ht2s⟩ := hr
        have ht2lt : startOf G t2 < s := Nat.lt_trans ht2s h3'
        have hle : startOf G h' ≤ startOf G t2 := by
          have := h4' t2 (hmono v t2 ht2r)
          rw [isTerminal_ext hn] at this
          exact this ht2t ht2lt
        omega
  | none =>
    cases hc' : getCandidate G' v s with
    | none => rfl
    | some h' =>
      exfalso
      obtain ⟨h1', h2', h3', h4'⟩ := getCandidate_some_spec G' hclosed' hc'
      rw [isTerminal_ext hn] at h2'
      rw [startOf_ext hn] at h3'
      rcases reach_ext G hwf ⟨hn, extra, he, hprop⟩ h1' with hr | hr
      · exact getCandidate_none_spec G hclosed hc h' hr h2' h3'
      · obtain ⟨-, t2, ht2r, ht2t, ht2s⟩ := hr
        exact getCandidate_none_spec G hclosed hc t2 ht2r ht2t
          (Nat.lt_trans ht2s h3')

/-- The already-inserted dependency edges never change `selectHead` at a
terminal. -/
theorem selectHead_ext (G : DiGraph) (hwf : WF G) {G' : DiGraph}
    (hext : DepExtension G G') {n : Nat} (hterm : isTerminal G n = true) :
    selectHead G' n = selectHead G n := by
  obtain ⟨hn, extra, he, hprop⟩ := hext
  have hnids := isTerminal_mem_ids G hterm
  have hn0 : n ≠ 0 := by
    rintro rfl
    rw [hwf.root_nonterminal] at hterm
    exact Bool.false_ne_true hterm
  have haux : ∀ (fuel : Nat) (father : Nat), isTerminal G father = false →
      selectHeadAux G' (startOf G n) fuel father =
        selectHeadAux G (startOf G n) fuel father := by
    intro fuel
    induction fuel with
    | zero => intro father hf; rfl
    | succ fuel ih =>
      intro father hf
      unfold selectHeadAux
      rw [getCandidate_ext G hwf ⟨hn, extra, he, hprop⟩ father (startOf G n)]
      cases hc : getCandidate G father (startOf G n) with
      | some c => rfl
      | none =>
        rw [parentOf_ext_nonterminal G ⟨hn, extra, he, hprop⟩ hf]
        cases hp : parentOf G father with
        | none => rfl
        | some p =>
          obtain ⟨l, hl⟩ := parentOf_edge G hp
          have hpids : p ∈ G.nodeIds := (hwf.edges_ok _ hl).2.1
          have hpsucc : succs G p ≠ [] := by
            intro hnil
            have : father ∈ succs G p := (succs_iff_step G p father).mpr ⟨l, hl⟩
            rw [hnil] at this
            exact List.not_mem_nil _ this
          have hpterm : isTerminal G p = false := by
            cases hcase : isTerminal G p with
            | false => rfl
            | true => exact absurd ((hwf.terminal_iff p hpids).mp hcase) hpsucc
          exact ih p hpterm
  unfold selectHead
  have hfilter_ne : G.edges.filter (fun e => e.2.1 = n) ≠ [] := by
    intro hnil
    have h1 := hwf.indeg_one n hnids hn0
    unfold inDegree at h1
    rw [hnil] at h1
    exact absurd h1 (by simp)
  rw [parentOf_ext_indeg G ⟨hn, extra, he, hprop⟩ hfilter_ne,
    startOf_ext hn]
  cases hp : parentOf G n with
  | none => rfl
  | some father =>
    obtain ⟨l, hl⟩ := parentOf_edge G hp
    have hfids : father ∈ G.nodeIds := (hwf.edges_ok _ hl).2.1
    have hfsucc : succs G father ≠ [] := by
      intro hnil
      have : n ∈ succs G father := (succs_iff_step G father n).mpr ⟨l, hl⟩
      rw [hnil] at this
      exact List.not_mem_nil _ this
    have hfterm : isTerminal G father = false := by
      cases hcase : isTerminal G father with
      | false => rfl
      | true =>
        exact absurd ((hwf.terminal_iff father hfids).mp hcase) hfsucc
    have hlen : G'.nodes.length = G.nodes.length := by rw [hn]
    rw [hlen]
    exact haux G.nodes.length father hfterm

/-! ## What `enrichAstWithDeps` produces -/

theorem attr_of_mem (G : DiGraph) (hnd : G.nodeIds.Nodup) {i : Nat}
    {a : NodeAttrs} (h : (i, a) ∈ G.nodes) : G.attr i = some a := by
  unfold DiGraph.nodeIds at hnd
  suffices key : ∀ (l : List (Nat × NodeAttrs)), (l.map Prod.fst).Nodup →
      (i, a) ∈ l → (l.find? (fun p => p.1 = i)).map Prod.snd = some a from
    key G.nodes hnd h
  intro l hl hmem
  induction l with
  | nil => cases hmem
  | cons pr rest ih =>
    rw [List.map_cons, List.nodup_cons] at hl
    by_cases hpr : pr.1 = i
    · rw [List.find?_cons_of_pos _ (by simpa using hpr)]
      rcases List.mem_cons.mp hmem with h2 | h2
      · rw [← h2]
        rfl
      · exfalso
        refine hl.1 ?_
        rw [hpr]
        exact List.mem_map.mpr ⟨(i, a), h2, rfl⟩
    · rw [List.find?_cons_of_neg _ (by simpa using hpr)]
      refine ih hl.2 ?_
      rcases List.mem_cons.mp hmem with h2 | h2
      · exact absurd (by rw [← h2] : pr.1 = i) hpr
      · exact h2

theorem isTerminal_of_mem_nodes (G : DiGraph) (hnd : G.nodeIds.Nodup)
    {pr : Nat × NodeAttrs} (h : pr ∈ G.nodes) :
    isTerminal G pr.1 = pr.2.is_terminal := by
  unfold isTerminal DiGraph.attrD
  rw [@attr_of_mem G hnd pr.1 pr.2 (by simpa using h)]
  rfl

/-- The terminal id list seen through node pairs and through `isTerminal`
coincide on a graph with unique ids. -/
theorem termIds_eq (G : DiGraph) (hnd : G.nodeIds.Nodup) :
    (G.nodes.filter (fun p => p.2.is_terminal)).map Prod.fst =
      G.nodeIds.filter (fun n => isTerminal G n) := by
  unfold DiGraph.nodeIds
  rw [List.filter_map]
  congr 1
  refine List.filter_congr ?_
  intro pr hpr
  simpa using (isTerminal_of_mem_nodes G hnd hpr).symm

theorem graph_eta (G : DiGraph) :
    ({ G with edges := G.edges ++ [] } : DiGraph) = G := by
  obtain ⟨ns, es⟩ := G
  simp

/-- The enrichment fold, characterised: starting from `G` extended with
`extra`, folding over non-root terminals appends exactly one dependency
edge per terminal, whose source is the head `selectHead` computes on the
*original* graph. -/
theorem enrich_fold (G : DiGraph) (hwf : WF G) :
    ∀ (l : List Nat), (∀ n ∈ l, isTerminal G n = true ∧ n ≠ getRoot G) →
      ∀ (extra : List (Nat × Nat × Option String)),
        (∀ e ∈ extra, isTerminal G e.1 = true ∧
          isTerminal G e.2.1 = true ∧ startOf G e.1 < startOf G e.2.1) →
        l.foldlM (fun G2 n => (selectHead G2 n).map
            (fun h => addEdge G2 h n (some "dependency")))
          ({ G with edges := G.edges ++ extra } : DiGraph) =
        some { G with edges := (G.edges ++ extra ++
          l.map (fun n =>
            ((selectHead G n).getD 0, n, some "dependency"))) } := by
  intro l
  induction l with
  | nil =>
    intro _ extra _
    simp
  | cons n rest ih =>
    intro hl extra hextra
    have hterm := (hl n (List.mem_cons_self n rest)).1
    have hnroot := (hl n (List.mem_cons_self n rest)).2
    have hext : DepExtension G { G with edges := G.edges ++ extra } :=
      ⟨rfl, extra, rfl, hextra⟩
    obtain ⟨h, hsh, hht, hhs, -⟩ := selectHead_spec G hwf hterm hnroot
    rw [List.foldlM_cons, selectHead_ext G hwf hext hterm, hsh]
    show rest.foldlM (fun G2 n => (selectHead G2 n).map
        (fun h => addEdge G2 h n (some "dependency")))
      (addEdge { G with edges := G.edges ++ extra } h n
        (some "dependency")) = _
    have hstep : addEdge { G with edges := G.edges ++ extra } h n
        (some "dependency") =
        { G with edges := G.edges ++
          (extra ++ [(h, n, some "dependency")]) } := by
      unfold addEdge
      simp
    rw [hstep]
    have hprops : ∀ e ∈ extra ++ [(h, n, some "dependency")],
        isTerminal G e.1 = true ∧ isTerminal G e.2.1 = true ∧
          startOf G e.1 < startOf G e.2.1 := by
      intro e hee
      rcases List.mem_append.mp hee with h2 | h2
      · exact hextra e h2
      · rw [List.mem_singleton] at h2
        subst h2
        exact ⟨hht, hterm, hhs⟩
    rw [ih (fun m hm => hl m (List.mem_cons_of_mem n hm)) _ hprops]
    congr 1
    rw [List.map_cons, hsh]
    simp [List.append_assoc]

/-- `enrichAstWithDeps` on a well-formed graph succeeds and appends exactly
the dependency edges `selectHead G n → n` for the non-root terminals `n`,
in iteration order. -/
theorem enrichAstWithDeps_spec (G : DiGraph) (hwf : WF G) :
    enrichAstWithDeps G = some (enrichedG G) := by
  unfold enrichAstWithDeps enrichedG depEdges depTerminals
  have hl : ∀ n ∈ G.nodeIds.filter
      (fun n => n ≠ getRoot G && isTerminal G n),
      isTerminal G n = true ∧ n ≠ getRoot G := by
    intro n hn
    have := List.of_mem_filter hn
    simp only [Bool.and_eq_true, decide_eq_true_eq] at this
    exact ⟨this.2, this.1⟩
  have := enrich_fold G hwf _ hl [] (by simp)
  rw [graph_eta] at this
  rw [this]
  simp

/-! ## Structure of the extracted dependency tree -/

theorem depTerminals_spec (G : DiGraph) {n : Nat}
    (hn : n ∈ depTerminals G) :
    isTerminal G n = true ∧ n ≠ getRoot G ∧ n ∈ G.nodeIds := by
  unfold depTerminals at hn
  have h1 := List.mem_of_mem_filter hn
  have h2 := List.of_mem_filter hn
  simp only [Bool.and_eq_true, decide_eq_true_eq] at h2
  exact ⟨h2.2, h2.1, h1⟩

theorem depTerminals_nodup (G : DiGraph) (hwf : WF G) :
    (depTerminals G).Nodup := by
  unfold depTerminals
  exact hwf.nodup_ids.filter _

/-- The head recorded for a dependent `n` by the enrichment. -/
theorem depHead_spec (G : DiGraph) (hwf : WF G) {n : Nat}
    (hn : n ∈ depTerminals G) :
    selectHead G n = some ((selectHead G n).getD 0) ∧
      isTerminal G ((selectHead G n).getD 0) = true ∧
      startOf G ((selectHead G n).getD 0) < startOf G n := by
  obtain ⟨hterm, hroot, -⟩ := depTerminals_spec G hn
  obtain ⟨h, hsh, hht, hhs, -⟩ := selectHead_spec G hwf hterm hroot
  rw [hsh]
  exact ⟨rfl, hht, hhs⟩

theorem depTree_nodes (G : DiGraph) :
    (getDependencyTree (enrichedG G)).nodes =
      G.nodes.filter (fun p => p.2.is_terminal) := rfl

/-- The dependency tree keeps exactly the inserted dependency edges: tree
edges never join two terminals. -/
theorem depTree_edges (G : DiGraph) (hwf : WF G) :
    (getDependencyTree (enrichedG G)).edges = depEdges G := by
  unfold getDependencyTree
  show (G.edges ++ depEdges G).filter _ = _
  rw [List.filter_append]
  have hterm_eq : isTerminal (enrichedG G) = isTerminal G :=
    isTerminal_ext rfl
  have h1 : G.edges.filter (fun e =>
      isTerminal (enrichedG G) e.1 && isTerminal (enrichedG G) e.2.1 &&
        truthyLabel e.2.2) = [] := by
    rw [List.filter_eq_nil_iff]
    intro e he
    have heids : e.1 ∈ G.nodeIds := (hwf.edges_ok e he).2.1
    have hsucc : succs G e.1 ≠ [] := by
      intro hnil
      have : e.2.1 ∈ succs G e.1 :=
        (succs_iff_step G e.1 e.2.1).mpr ⟨e.2.2, by simpa using he⟩
      rw [hnil] at this
      exact List.not_mem_nil _ this
    have hnoterm : isTerminal G e.1 = false := by
      cases hcase : isTerminal G e.1 with
      | false => rfl
      | true =>
        exact absurd ((hwf.terminal_iff e.1 heids).mp hcase) hsucc
    rw [hterm_eq]
    simp [hnoterm]
  have h2 : (depEdges G).filter (fun e =>
      isTerminal (enrichedG G) e.1 && isTerminal (enrichedG G) e.2.1 &&
        truthyLabel e.2.2) = depEdges G := by
    rw [List.filter_eq_self]
    intro e he
    unfold depEdges at he
    rcases List.mem_map.mp he with ⟨n, hn, hne⟩
    obtain ⟨-, hht, -⟩ := depHead_spec G hwf hn
    obtain ⟨hterm, -, -⟩ := depTerminals_spec G hn
    rw [hterm_eq, ← hne]
    simp only [Bool.and_eq_true]
    exact ⟨⟨by simpa using hht, by simpa using hterm⟩, by simp [truthyLabel]⟩
  rw [h1, h2, List.nil_append]

theorem depTree_nodeIds (G : DiGraph) (hwf : WF G) :
    (getDependencyTree (enrichedG G)).nodeIds =
      G.nodeIds.filter (fun n => isTerminal G n) := by
  unfold DiGraph.nodeIds
  rw [depTree_nodes]
  exact termIds_eq G hwf.nodup_ids

theorem filter_dst_map_eq (f : Nat → Nat) :
    ∀ (ns : List Nat) (n : Nat), ns.Nodup → n ∈ ns →
      ((ns.map (fun m => (f m, m, some "dependency"))).filter
        (fun e => e.2.1 = n)) = [(f n, n, some "dependency")] := by
  intro ns
  induction ns with
  | nil => intro n _ hn; cases hn
  | cons m rest ih =>
    intro n hnd hn
    rw [List.map_cons]
    by_cases hmn : m = n
    · subst hmn
      rw [List.filter_cons_of_pos (by simp)]
      have hrest : ((rest.map (fun m => (f m, m, some "dependency"))).filter
          (fun e => e.2.1 = m)) = [] := by
        rw [List.filter_eq_nil_iff]
        intro e he
        rcases List.mem_map.mp he with ⟨k, hk, hke⟩
        have : k ≠ m := fun hkm =>
          (List.nodup_cons.mp hnd).1 (hkm ▸ hk)
        rw [← hke]
        simpa using this
      rw [hrest]
    · rw [List.filter_cons_of_neg (by simpa using hmn)]
      refine ih n (List.nodup_cons.mp hnd).2 ?_
      rcases List.mem_cons.mp hn with h | h
      · exact absurd (show m = n by omega) hmn
      · exact h

theorem filter_dst_map_nil (f : Nat → Nat) (ns : List Nat) (n : Nat)
    (hn : n ∉ ns) :
    ((ns.map (fun m => (f m, m, some "dependency"))).filter
      (fun e => e.2.1 = n)) = [] := by
  rw [List.filter_eq_nil_iff]
  intro e he
  rcases List.mem_map.mp he with ⟨k, hk, hke⟩
  have : k ≠ n := fun hkm => hn (hkm ▸ hk)
  rw [← hke]
  simpa using this

/-- Parent structure of the dependency tree: each non-root terminal points
at its selected head, the root points nowhere. -/
theorem depTree_parentOf (G : DiGraph) (hwf : WF G) {n : Nat}
    (hn : n ∈ depTerminals G) :
    parentOf (getDependencyTree (enrichedG G)) n =
      some ((selectHead G n).getD 0) := by
  unfold parentOf
  rw [depTree_edges G hwf]
  unfold depEdges
  rw [filter_dst_map_eq _ (depTerminals G) n (depTerminals_nodup G hwf) hn]
  rfl

theorem depTree_parentOf_root (G : DiGraph) (hwf : WF G) :
    parentOf (getDependencyTree (enrichedG G)) (getRoot G) = none := by
  unfold parentOf
  rw [depTree_edges G hwf]
  unfold depEdges
  rw [filter_dst_map_nil _ (depTerminals G) (getRoot G) (by
    intro hmem
    exact (depTerminals_spec G hmem).2.1 rfl)]
  rfl

theorem length_filter_strict {p q : Nat → Bool} :
    ∀ (l : List Nat), (∀ x ∈ l, p x = true → q x = true) →
      ∀ {h : Nat}, h ∈ l → q h = true → p h = false →
        (l.filter p).length < (l.filter q).length := by
  intro l
  induction l with
  | nil => intro _ h hh; cases hh
  | cons a rest ih =>
    intro himp h hh hq hp
    by_cases hpa : p a = true
    · have hqa := himp a (List.mem_cons_self a rest) hpa
      rw [List.filter_cons_of_pos hpa, List.filter_cons_of_pos hqa]
      simp only [List.length_cons]
      have hh2 : h ∈ rest := by
        rcases List.mem_cons.mp hh with h1 | h1
        · rw [h1, hpa] at hp
          exact absurd hp (by simp)
        · exact h1
      exact Nat.succ_lt_succ
        (ih (fun x hx => himp x (List.mem_cons_of_mem a hx)) hh2 hq hp)
    · rw [List.filter_cons_of_neg hpa]
      by_cases hqa : q a = true
      · rw [List.filter_cons_of_pos hqa]
        simp only [List.length_cons]
        rcases List.mem_cons.mp hh with h1 | h1
        · have hle : (rest.filter p).length ≤ (rest.filter q).length := by
            rw [← List.countP_eq_length_filter, ← List.countP_eq_length_filter]
            exact List.countP_mono_left
              (fun x hx => himp x (List.mem_cons_of_mem a hx))
          omega
        · have := ih (fun x hx => himp x (List.mem_cons_of_mem a hx)) h1 hq hp
          omega
      · rw [List.filter_cons_of_neg hqa]
        have hh2 : h ∈ rest := by
          rcases List.mem_cons.mp hh with h1 | h1
          · exact absurd (h1 ▸ hq) hqa
          · exact h1
        exact ih (fun x hx => himp x (List.mem_cons_of_mem a hx)) hh2 hq hp

theorem length_filter_ne {r : Nat} :
    ∀ (l : List Nat), l.Nodup → r ∈ l →
      (l.filter (fun n => n ≠ r)).length + 1 = l.length := by
  intro l
  induction l with
  | nil => intro _ hr; cases hr
  | cons a rest ih =>
    intro hnd hr
    by_cases har : a = r
    · subst har
      rw [List.filter_cons_of_neg (by simp)]
      have : rest.filter (fun n => n ≠ a) = rest := by
        rw [List.filter_eq_self]
        intro x hx
        have : x ≠ a := fun he => (List.nodup_cons.mp hnd).1 (he ▸ hx)
        simpa using this
      rw [this]
      simp
    · rw [List.filter_cons_of_pos (by simpa using har)]
      have hr2 : r ∈ rest := by
        rcases List.mem_cons.mp hr with h1 | h1
        · exact absurd h1.symm har
        · exact h1
      simp only [List.length_cons]
      have := ih (List.nodup_cons.mp hnd).2 hr2
      omega

theorem depTree_mem_ids (G : DiGraph) (hwf : WF G) {t : Nat} :
    t ∈ (getDependencyTree (enrichedG G)).nodeIds ↔
      t ∈ G.nodeIds ∧ isTerminal G t = true := by
  rw [depTree_nodeIds G hwf, List.mem_filter]

/-- One-step unfolding of `chainAux` at positive fuel. -/
theorem chainAux_succ (G : DiGraph) (fuel n : Nat) :
    chainAux G (fuel + 1) n =
      match parentOf G n with
      | none => [n]
      | some p => n :: chainAux G fuel p := rfl

/-- The head chains of the dependency tree: every chain stays inside the
terminals, strictly descends in `start`, and ends at the dependency root. -/
theorem depChainAux_spec (G : DiGraph) (hwf : WF G)
    (_hex : ∃ x ∈ G.nodeIds, isTerminal G x = true) :
    ∀ (fuel : Nat) (t : Nat),
      t ∈ (getDependencyTree (enrichedG G)).nodeIds →
      ((getDependencyTree (enrichedG G)).nodeIds.filter
        (fun m => startOf G m < startOf G t)).length < fuel →
      (∀ m ∈ chainAux (getDependencyTree (enrichedG G)) fuel t,
        m ∈ (getDependencyTree (enrichedG G)).nodeIds ∧
          startOf G m ≤ startOf G t) ∧
      (chainAux (getDependencyTree (enrichedG G)) fuel t).Nodup ∧
      (chainAux (getDependencyTree (enrichedG G)) fuel t).getLast? =
        some (getRoot G) := by
  intro fuel
  induction fuel with
  | zero => intro t _ hlen; omega
  | succ fuel ih =>
    intro t htids hlen
    by_cases htroot : t = getRoot G
    · subst htroot
      have hchain : chainAux (getDependencyTree (enrichedG G)) (fuel + 1)
          (getRoot G) = [getRoot G] := by
        rw [chainAux_succ, depTree_parentOf_root G hwf]
      rw [hchain]
      refine ⟨?_, List.nodup_singleton _, rfl⟩
      intro m hm
      rw [List.mem_singleton] at hm
      subst hm
      exact ⟨htids, Nat.le_refl _⟩
    · have htmem := (depTree_mem_ids G hwf).mp htids
      have hdt : t ∈ depTerminals G := by
        unfold depTerminals
        refine List.mem_filter.mpr ⟨htmem.1, ?_⟩
        simp only [Bool.and_eq_true, decide_eq_true_eq]
        exact ⟨htroot, htmem.2⟩
      obtain ⟨-, hht, hhs⟩ := depHead_spec G hwf hdt
      have hpar := depTree_parentOf G hwf hdt
      have hchain : chainAux (getDependencyTree (enrichedG G)) (fuel + 1) t =
          t :: chainAux (getDependencyTree (enrichedG G)) fuel
            ((selectHead G t).getD 0) := by
        rw [chainAux_succ, hpar]
      have hhids : (selectHead G t).getD 0 ∈
          (getDependencyTree (enrichedG G)).nodeIds :=
        (depTree_mem_ids G hwf).mpr ⟨isTerminal_mem_ids G hht, hht⟩
      have hstrict : ((getDependencyTree (enrichedG G)).nodeIds.filter
          (fun m => startOf G m < startOf G ((selectHead G t).getD 0))).length <
          ((getDependencyTree (enrichedG G)).nodeIds.filter
            (fun m => startOf G m < startOf G t)).length := by
        refine length_filter_strict _ ?_ hhids (by simpa using hhs)
          (by simp)
        intro x _ hx
        simp only [decide_eq_true_eq] at hx ⊢
        omega
      obtain ⟨ihmem, ihnd, ihlast⟩ := ih ((selectHead G t).getD 0) hhids
        (by omega)
      rw [hchain]
      refine ⟨?_, ?_, ?_⟩
      · intro m hm
        rcases List.mem_cons.mp hm with h1 | h1
        · subst h1
          exact ⟨htids, Nat.le_refl _⟩
        · obtain ⟨hmi, hms⟩ := ihmem m h1
          exact ⟨hmi, by omega⟩
      · refine List.Nodup.cons ?_ ihnd
        intro hmem
        have := (ihmem t hmem).2
        omega
      · rw [List.getLast?_cons, ihlast]
        rfl

/-! ## C2: the Dependency Projector invariants -/

/-- C2: on every well-formed constituency graph with at least one terminal,
the enrichment succeeds and the extracted dependency tree has exactly the
terminal nodes with unchanged attributes, exactly `N - 1` edges for `N`
terminals, and every head chain is duplicate-free and reaches the
dependency root within `N` nodes (hence at most `N - 1` steps). -/
theorem dependency_tree_spec (G : DiGraph) (hwf : WF G)
    (hex : ∃ x ∈ G.nodeIds, isTerminal G x = true) :
    ∃ G2, enrichAstWithDeps G = some G2 ∧
      (getDependencyTree G2).nodes =
        G.nodes.filter (fun p => p.2.is_terminal) ∧
      (getDependencyTree G2).edges.length + 1 =
        (G.nodeIds.filter (fun n => isTerminal G n)).length ∧
      ∀ t ∈ (getDependencyTree G2).nodeIds,
        (ancestors (getDependencyTree G2) t).getLast? = some (getRoot G) ∧
        (ancestors (getDependencyTree G2) t).Nodup ∧
        (ancestors (getDependencyTree G2) t).length ≤
          (G.nodeIds.filter (fun n => isTerminal G n)).length := by
  refine ⟨enrichedG G, enrichAstWithDeps_spec G hwf, depTree_nodes G, ?_, ?_⟩
  · rw [depTree_edges G hwf]
    unfold depEdges
    rw [List.length_map]
    unfold depTerminals
    obtain ⟨hrids, hrterm, -⟩ := getRoot_spec G hex
    have hsplit : G.nodeIds.filter
        (fun n => n ≠ getRoot G && isTerminal G n) =
        (G.nodeIds.filter (fun n => isTerminal G n)).filter
          (fun n => n ≠ getRoot G) := by
      rw [List.filter_filter]
    rw [hsplit]
    exact length_filter_ne _ (hwf.nodup_ids.filter _)
      (List.mem_filter.mpr ⟨hrids, by simpa using hrterm⟩)
  · intro t htids
    have hfuel : ((getDependencyTree (enrichedG G)).nodeIds.filter
        (fun m => startOf G m < startOf G t)).length <
        (getDependencyTree (enrichedG G)).nodes.length := by
      rw [← nodeIds_length]
      exact Nat.lt_of_lt_of_le
        (List.length_filter_lt_length_iff_exists.mpr
          ⟨t, htids, by simp⟩) (Nat.le_refl _)
    obtain ⟨hmem, hnd, hlast⟩ := depChainAux_spec G hwf hex
      (getDependencyTree (enrichedG G)).nodes.length t htids hfuel
    refine ⟨hlast, hnd, ?_⟩
    have hsub : ancestors (getDependencyTree (enrichedG G)) t ⊆
        (getDependencyTree (enrichedG G)).nodeIds := fun m hm =>
      (hmem m hm).1
    have hle := (List.subperm_of_subset hnd hsub).length_le
    rw [depTree_nodeIds G hwf] at hle
    exact hle

/-- Witness for `dependency_tree_spec` on the example graph. -/
theorem dependency_tree_spec_witness :
    ∃ G2, enrichAstWithDeps exampleG = some G2 ∧
      (getDependencyTree G2).nodes =
        exampleG.nodes.filter (fun p => p.2.is_terminal) ∧
      (getDependencyTree G2).edges.length + 1 =
        (exampleG.nodeIds.filter (fun n => isTerminal exampleG n)).length ∧
      ∀ t ∈ (getDependencyTree G2).nodeIds,
        (ancestors (getDependencyTree G2) t).getLast? =
          some (getRoot exampleG) ∧
        (ancestors (getDependencyTree G2) t).Nodup ∧
        (ancestors (getDependencyTree G2) t).length ≤
          (exampleG.nodeIds.filter
            (fun n => isTerminal exampleG n)).length :=
  dependency_tree_spec exampleG
    ⟨by decide, by decide, by decide, by decide, by decide, by decide,
      by decide, by decide, by decide⟩
    ⟨2, by decide, by decide⟩

/-! ## C5: the label invariants -/

/-- Bounds for the index selected by the `labelDepTree` loop: on a
well-formed graph, comparing the non-empty interior spine from `h` to `n`
against the interior spine from `h` to any node `x`, the selected index is
non-negative and strictly below the spine length (shared interior nodes of
two paths out of `h` sit at equal positions, and the `None` fallback
`len(spine_n) - 1` is in range because the spine is non-empty). -/
theorem spineIndex_bounds (G : DiGraph) (hwf : WF G) {h n x : Nat}
    (hh : h ∈ G.nodeIds) (hn : n ∈ G.nodeIds) (hx : x ∈ G.nodeIds)
    (hne : interior (shortest_path G h n) ≠ []) :
    0 ≤ spineIndex (interior (shortest_path G h n))
        (interior (shortest_path G h x)) ∧
      spineIndex (interior (shortest_path G h n))
          (interior (shortest_path G h x)) <
        ((interior (shortest_path G h n)).length : Int) := by
  unfold spineIndex
  rw [foldl_spineIndex]
  cases hlast : ((interior (shortest_path G h n)).filter
      (fun m => (interior (shortest_path G h x)).contains m)).getLast? with
  | none =>
    have hlen : 0 < (interior (shortest_path G h n)).length :=
      List.length_pos.mpr hne
    dsimp only
    constructor <;> omega
  | some m =>
    have hm_f := mem_of_getLast?_eq hlast
    have hm_n : m ∈ interior (shortest_path G h n) :=
      List.mem_of_mem_filter hm_f
    have hm_x : m ∈ interior (shortest_path G h x) := by
      have hb := List.of_mem_filter hm_f
      simpa using hb
    have heq : (interior (shortest_path G h x)).indexOf m =
        (interior (shortest_path G h n)).indexOf m :=
      spine_indexOf_eq G hwf hh hn hx hm_n hm_x
    have hlt : (interior (shortest_path G h n)).indexOf m <
        (interior (shortest_path G h n)).length :=
      List.indexOf_lt_length.mpr hm_n
    dsimp only
    rw [heq]
    constructor <;> omega

/-- C5: every `ComplexEdgeLabels` value produced by `labelDepTree` on the
dependency tree of a well-formed constituency graph with a terminal has
`non_terminals` and `depths` of equal length, and a `special_index` with
`0 ≤ special_index < len(non_terminals)`.  In particular `non_terminals`
is never empty (two terminals are never adjacent in the constituency
tree), so the claim's empty-list escape clause never triggers and the
strict bound always holds. -/
theorem labelDepTree_invariants (G : DiGraph) (hwf : WF G)
    (hex : ∃ x ∈ G.nodeIds, isTerminal G x = true) :
    ∀ p ∈ labelDepTree G (getDependencyTree (enrichedG G)),
      p.2.non_terminals.length = p.2.depths.length ∧
      0 ≤ p.2.special_index ∧
      p.2.special_index < (p.2.non_terminals.length : Int) := by
  intro p hp
  obtain ⟨hrids, hrterm, -⟩ := getRoot_spec G hex
  simp only [labelDepTree, List.mem_map] at hp
  obtain ⟨n, hn, rfl⟩ := hp
  have hdt : n ∈ depTerminals G := hn
  obtain ⟨hterm_n, hne_root, hn_ids⟩ := depTerminals_spec G hdt
  by_cases hr : getHeadDepTree (getDependencyTree (enrichedG G)) n = getRoot G
  · rw [if_pos hr, hr]
    have hinner : interior (shortest_path G (getRoot G) n) ≠ [] :=
      interior_path_ne_nil G hwf hrids hn_ids (Ne.symm hne_root)
        hrterm hterm_n
    have hlen : 0 < (interior (shortest_path G (getRoot G) n)).length :=
      List.length_pos.mpr hinner
    refine ⟨by simp, by simp, ?_⟩
    simp only [List.length_map]
    omega
  · rw [if_neg hr]
    have hpar := depTree_parentOf G hwf hdt
    have hhead_eq : getHeadDepTree (getDependencyTree (enrichedG G)) n =
        (selectHead G n).getD 0 := by
      unfold getHeadDepTree
      rw [hpar]
      rfl
    obtain ⟨-, hterm_h, hstart_h⟩ := depHead_spec G hwf hdt
    rw [← hhead_eq] at hterm_h hstart_h
    have hh_ids : getHeadDepTree (getDependencyTree (enrichedG G)) n ∈
        G.nodeIds := isTerminal_mem_ids G hterm_h
    have hhn : getHeadDepTree (getDependencyTree (enrichedG G)) n ≠ n := by
      intro he
      rw [he] at hstart_h
      exact Nat.lt_irrefl _ hstart_h
    have hspine : interior (shortest_path G
        (getHeadDepTree (getDependencyTree (enrichedG G)) n) n) ≠ [] :=
      interior_path_ne_nil G hwf hh_ids hn_ids hhn hterm_h hterm_n
    have hdth : getHeadDepTree (getDependencyTree (enrichedG G)) n ∈
        depTerminals G := by
      unfold depTerminals
      refine List.mem_filter.mpr ⟨hh_ids, ?_⟩
      simp only [Bool.and_eq_true, decide_eq_true_eq]
      exact ⟨hr, hterm_h⟩
    have hparh := depTree_parentOf G hwf hdth
    have hhead2_eq : getHeadDepTree (getDependencyTree (enrichedG G))
        (getHeadDepTree (getDependencyTree (enrichedG G)) n) =
        (selectHead G
          (getHeadDepTree (getDependencyTree (enrichedG G)) n)).getD 0 := by
      show (parentOf (getDependencyTree (enrichedG G))
          (getHeadDepTree (getDependencyTree (enrichedG G)) n)).getD 0 = _
      rw [hparh]
      rfl
    obtain ⟨-, hterm_hh, -⟩ := depHead_spec G hwf hdth
    rw [← hhead2_eq] at hterm_hh
    have hhh_ids := isTerminal_mem_ids G hterm_hh
    obtain ⟨hge, hlt⟩ := spineIndex_bounds G hwf hh_ids hn_ids hhh_ids hspine
    refine ⟨by simp, hge, ?_⟩
    simpa [List.length_map] using hlt

/-- Witness for `labelDepTree_invariants` at the `( → )` label of the
example graph. -/
theorem labelDepTree_invariants_witness :
    (⟨["parameters"], [1], 0⟩ : ComplexEdgeLabels).non_terminals.length =
        (⟨["parameters"], [1], 0⟩ : ComplexEdgeLabels).depths.length ∧
      0 ≤ (⟨["parameters"], [1], 0⟩ : ComplexEdgeLabels).special_index ∧
      (⟨["parameters"], [1], 0⟩ : ComplexEdgeLabels).special_index <
        ((⟨["parameters"], [1], 0⟩ :
          ComplexEdgeLabels).non_terminals.length : Int) :=
  labelDepTree_invariants exampleG
    ⟨by decide, by decide, by decide, by decide, by decide, by decide,
      by decide, by decide, by decide⟩
    ⟨2, by decide, by decide⟩
    (((5 : Nat), (6 : Nat)), (⟨["parameters"], [1], 0⟩ : ComplexEdgeLabels))
    (by decide)

end AstProbing
